import Mathlib

/-!
Verification development for the Hotspice energy engine (`hotspice/energies.py`).

The Python arrays are embedded as total functions:
* a lattice-shaped array is a `Grid α ny nx = Fin ny → Fin nx → α`;
* a dipolar kernel (numpy shape `(2*ny-1, 2*nx-1)`) is a total function
  `ℤ → ℤ → α`; every access the code performs lies inside the window
  `[0, 2*ny-2] × [0, 2*nx-2]`, so values outside the window are junk that no
  theorem depends on.

Machine floats are embedded as elements of a commutative ring (the concrete
instantiations below use `ℤ`, `ℚ` and `ℝ`), so "equal within floating
tolerance" in the specification becomes exact equality in the model.

The host lattice object `Magnets` (`hotspice/core.py`) is not part of the
sources; following the specification (§2, §3, §6) it is an external
collaborator that only exposes read accessors.  Its fields that the energy
code reads (`m`, `moment`, `in_plane`, `USE_PERP_ENERGY`, `PBC`, `unitcell`,
`params`, `orientation`, `occupation`, `xx`, `yy`) are therefore carried as
plain data in the context structures below.
-/

set_option maxHeartbeats 1000000
set_option linter.unusedSectionVars false

namespace Hotspice

/-- A dense 2D array of values, indexed `[y, x]` as in the numpy arrays of
`energies.py` (row index first). -/
abbrev Grid (α : Type) (ny nx : ℕ) := Fin ny → Fin nx → α

/-- A lattice site, as a `(y, x)` index pair. -/
abbrev Site (ny nx : ℕ) := Fin ny × Fin nx

/-- A dipolar kernel: a 2D array of shape `(2*ny-1, 2*nx-1)` embedded as a
total function on integer indices. -/
abbrev Ker (α : Type) := ℤ → ℤ → α

variable {α : Type} {ny nx : ℕ}

/-- Reduce an integer index modulo the axis length, as numpy's periodic
("wrap") boundary handling does. -/
def wrapIdx (n : ℕ) [NeZero n] (i : ℤ) : Fin n :=
  ⟨(i % (n : ℤ)).toNat, by
    have hn : (0 : ℤ) < (n : ℤ) := by
      exact_mod_cast Nat.pos_of_ne_zero (NeZero.ne n)
    have h1 : 0 ≤ i % (n : ℤ) := Int.emod_nonneg i (by omega)
    have h2 : i % (n : ℤ) < (n : ℤ) := Int.emod_lt_of_pos i hn
    omega⟩

/-- `signal.convolve2d(A, B, mode='valid')` for `A` of shape
`(2*ny-1, 2*nx-1)` and `B` of shape `(ny, nx)`: the output has shape
`(ny, nx)` and `out[i,j] = Σ_{u,v} A[i+ny-1-u, j+nx-1-v] * B[u,v]`. -/
def convValid [CommRing α] (A : Ker α) (B : Grid α ny nx) : Grid α ny nx :=
  fun i j => ∑ u : Fin ny, ∑ v : Fin nx,
    A ((i : ℤ) + (ny : ℤ) - 1 - (u : ℤ)) ((j : ℤ) + (nx : ℤ) - 1 - (v : ℤ)) * B u v

/-- The `[::-1, ::-1]` reversal of a kernel of shape `(2*ny-1, 2*nx-1)`. -/
def reverseK (ny nx : ℕ) (A : Ker α) : Ker α :=
  fun i j => A (2 * (ny : ℤ) - 2 - i) (2 * (nx : ℤ) - 2 - j)

/-- `signal.convolve2d(B, A, mode='same', boundary='fill')` where `B` has the
lattice shape and `A` has odd shape `(2*a+1, 2*b+1)` with centre `(a, b)`:
out-of-window kernel accesses contribute nothing (zero padding of `B` is
equivalent to restricting the sum to the support of `B` with the kernel index
guarded to its window). -/
def convSameFill [CommRing α] (B : Grid α ny nx) (A : Ker α) (a b : ℕ) :
    Grid α ny nx :=
  fun i j => ∑ u : Fin ny, ∑ v : Fin nx,
    (if 0 ≤ (i : ℤ) + a - u ∧ (i : ℤ) + a - u ≤ 2 * a ∧
        0 ≤ (j : ℤ) + b - v ∧ (j : ℤ) + b - v ≤ 2 * b then
      A ((i : ℤ) + a - u) ((j : ℤ) + b - v) * B u v
    else 0)

/-- `signal.convolve2d(B, A, mode='same', boundary='wrap')`: every kernel
entry is paired with the periodically extended `B`. -/
def convSameWrap [CommRing α] [NeZero ny] [NeZero nx] (B : Grid α ny nx)
    (A : Ker α) (a b : ℕ) : Grid α ny nx :=
  fun i j => ∑ p ∈ Finset.range (2 * a + 1), ∑ q ∈ Finset.range (2 * b + 1),
    A p q * B (wrapIdx ny ((i : ℤ) + a - p)) (wrapIdx nx ((j : ℤ) + b - q))

/-- The local `apply_PBC` of `DipolarEnergy._initialize`: the eight
toroidally shifted copies of the kernel are added onto the principal window.
Each of the eight summands carries the exact index ranges of the
corresponding slice assignment in the source. -/
def applyPBC (ny nx : ℕ) (k : Ker α) [CommRing α] : Ker α :=
  fun i j =>
    k i j
    + (if 0 ≤ i ∧ i ≤ 2 * (ny : ℤ) - 2 ∧ (nx : ℤ) ≤ j ∧ j ≤ 2 * (nx : ℤ) - 2 then
        k i (j - nx) else 0)
    + (if (ny : ℤ) ≤ i ∧ i ≤ 2 * (ny : ℤ) - 2 ∧ (nx : ℤ) ≤ j ∧ j ≤ 2 * (nx : ℤ) - 2 then
        k (i - ny) (j - nx) else 0)
    + (if (ny : ℤ) ≤ i ∧ i ≤ 2 * (ny : ℤ) - 2 ∧ 0 ≤ j ∧ j ≤ 2 * (nx : ℤ) - 2 then
        k (i - ny) j else 0)
    + (if (ny : ℤ) ≤ i ∧ i ≤ 2 * (ny : ℤ) - 2 ∧ 0 ≤ j ∧ j ≤ (nx : ℤ) - 2 then
        k (i - ny) (j + nx) else 0)
    + (if 0 ≤ i ∧ i ≤ 2 * (ny : ℤ) - 2 ∧ 0 ≤ j ∧ j ≤ (nx : ℤ) - 2 then
        k i (j + nx) else 0)
    + (if 0 ≤ i ∧ i ≤ (ny : ℤ) - 2 ∧ 0 ≤ j ∧ j ≤ (nx : ℤ) - 2 then
        k (i + ny) (j + nx) else 0)
    + (if 0 ≤ i ∧ i ≤ (ny : ℤ) - 2 ∧ 0 ≤ j ∧ j ≤ 2 * (nx : ℤ) - 2 then
        k (i + ny) j else 0)
    + (if 0 ≤ i ∧ i ≤ (ny : ℤ) - 2 ∧ (nx : ℤ) ≤ j ∧ j ≤ 2 * (nx : ℤ) - 2 then
        k (i + ny) (j - nx) else 0)

/-- A kernel access restricted to the array window `(2*ny-1, 2*nx-1)`
(any access outside the numpy array's bounds does not exist, i.e.
contributes nothing): used to characterize the slice arithmetic of
`apply_PBC`. -/
def winGuard [CommRing α] (ny nx : ℕ) (k : Ker α) : Ker α :=
  fun i j =>
    if 0 ≤ i ∧ i ≤ 2 * (ny : ℤ) - 2 ∧ 0 ≤ j ∧ j ≤ 2 * (nx : ℤ) - 2 then k i j
    else 0

/-- The mutable per-contribution state: the spin configuration `mm.m` (owned
by the external scheduler, already flipped before any incremental update is
requested), the energy grid `E` and the perpendicular-switch grid `E_perp`. -/
structure EState (α : Type) (ny nx : ℕ) where
  m : Grid α ny nx
  E : Grid α ny nx
  E_perp : Grid α ny nx

instance [DecidableEq α] : DecidableEq (EState α ny nx) := fun a b =>
  decidable_of_iff (a.m = b.m ∧ a.E = b.E ∧ a.E_perp = b.E_perp)
    (by cases a; cases b; simp [EState.mk.injEq])

/-- Flip a single spin (what the external scheduler does right before calling
`update_single`). -/
def flipOne (s : Site ny nx) (m : Grid α ny nx) [Neg α] : Grid α ny nx :=
  fun y x => if (y, x) = s then -m y x else m y x

/-- Flip a set of spins simultaneously (what the external scheduler does
right before calling `update_multiple`). -/
def flipMany (S : List (Site ny nx)) (m : Grid α ny nx) [Neg α] : Grid α ny nx :=
  fun y x => if (y, x) ∈ S then -m y x else m y x

/-- Negate a grid at the listed sites, as the fancy-indexed
`self.E[indices2D[0], indices2D[1]] *= -1` does (duplicate indices are
negated once, matching numpy's buffered in-place semantics). -/
def negAt (S : List (Site ny nx)) (g : Grid α ny nx) [Neg α] : Grid α ny nx :=
  fun y x => if (y, x) ∈ S then -g y x else g y x

/-- One call into an energy contribution's update surface:
`update_single` / `update_multiple` (with the switch already applied to the
spin configuration, per the contract), or a full `update` recompute. -/
inductive SwitchOp (ny nx : ℕ) where
  | single (s : Site ny nx)
  | multiple (S : List (Site ny nx))
  | recompute

/-! ### ZeemanEnergy -/

/-- The immutable data of a `ZeemanEnergy` bound to a lattice: the factors
computed by `set_field` (for an in-plane lattice
`E_factor = -moment*(B_x*orientation_x + B_y*orientation_y)`, for an
out-of-plane lattice `E_factor = -moment*B` and `E_factor_perp = 0`). -/
structure ZeemanCtx (α : Type) (ny nx : ℕ) where
  use_perp : Bool
  E_factor : Grid α ny nx
  E_factor_perp : Grid α ny nx

/-- `ZeemanEnergy.update`: `E = m * E_factor`, and when `USE_PERP_ENERGY`
also `E_perp = m * E_factor_perp`. -/
def zeemanUpdate [CommRing α] (c : ZeemanCtx α ny nx) (st : EState α ny nx) :
    EState α ny nx :=
  { st with
    E := fun y x => st.m y x * c.E_factor y x
    E_perp := if c.use_perp then
        (fun y x => st.m y x * c.E_factor_perp y x)
      else st.E_perp }

/-- `ZeemanEnergy.update_single`: negate the switched magnet's own entry. -/
def zeemanUpdateSingle [CommRing α] (c : ZeemanCtx α ny nx) (s : Site ny nx)
    (st : EState α ny nx) : EState α ny nx :=
  { st with
    E := fun y x => if (y, x) = s then -st.E y x else st.E y x
    E_perp := if c.use_perp then
        (fun y x => if (y, x) = s then -st.E_perp y x else st.E_perp y x)
      else st.E_perp }

/-- `ZeemanEnergy.update_multiple`: negate the switched magnets' entries. -/
def zeemanUpdateMultiple [CommRing α] (c : ZeemanCtx α ny nx)
    (S : List (Site ny nx)) (st : EState α ny nx) : EState α ny nx :=
  { st with
    E := negAt S st.E
    E_perp := if c.use_perp then negAt S st.E_perp else st.E_perp }

/-- One scheduler step against the Zeeman contribution: flip the spins, then
dispatch the corresponding update call. -/
def zeemanStep [CommRing α] (c : ZeemanCtx α ny nx) (st : EState α ny nx) :
    SwitchOp ny nx → EState α ny nx
  | .single s => zeemanUpdateSingle c s { st with m := flipOne s st.m }
  | .multiple S => zeemanUpdateMultiple c S { st with m := flipMany S st.m }
  | .recompute => zeemanUpdate c st

/-- A whole sequence of scheduler steps against the Zeeman contribution. -/
def zeemanRun [CommRing α] (c : ZeemanCtx α ny nx) (st : EState α ny nx)
    (ops : List (SwitchOp ny nx)) : EState α ny nx :=
  ops.foldl (zeemanStep c) st

/-- `ZeemanEnergy.E_tot = xp.sum(self.E)` (site-local contribution: no
division by two). -/
def zeemanEtot [CommRing α] (E : Grid α ny nx) : α := ∑ y : Fin ny, ∑ x : Fin nx, E y x

/-! ### DipolarEnergy -/

/-- The immutable data of a `DipolarEnergy` bound to a lattice: the scalar
`prefactor`, the lattice read accessors the update code uses, the tunables
`SIMULTANEOUS_SWITCHES_CONVOLUTION_OR_SUM_CUTOFF` (`cutoff`) and
`REDUCED_KERNEL_SIZE` (`rks`), and the kernel cache built by `_initialize`:
`kernel_unitcell_indices` maps a unit-cell offset to the kernel index
(`-1` when no magnet occupies that offset), and the three kernel lists are
indexed by that number. -/
structure DipCtx (α : Type) (ny nx : ℕ) where
  prefactor : α
  moment : Grid α ny nx
  use_perp : Bool
  pbc : Bool
  cy : ℕ
  cx : ℕ
  cutoff : ℕ
  rks : ℕ
  kernel_unitcell_indices : ℕ → ℕ → ℤ
  kernel_unitcell : ℤ → Ker α
  kernel_perpself_unitcell : ℤ → Ker α
  kernel_perpother_unitcell : ℤ → Ker α

/-- The kernel index of the unit cell offset of a site
(`kernel_unitcell_indices[y % unitcell.y, x % unitcell.x]`). -/
def dipIdx (c : DipCtx α ny nx) (s : Site ny nx) : ℤ :=
  c.kernel_unitcell_indices ((s.1 : ℕ) % c.cy) ((s.2 : ℕ) % c.cx)

/-- A site whose unit-cell offset holds a physical magnet (kernel index not
`-1`). -/
def dipValid (c : DipCtx α ny nx) (s : Site ny nx) : Prop := 0 ≤ dipIdx c s

instance (c : DipCtx α ny nx) (s : Site ny nx) : Decidable (dipValid c s) := by
  unfold dipValid; infer_instance

/-- `self.mm.m * self.mm.moment`. -/
def mmoment [CommRing α] (c : DipCtx α ny nx) (m : Grid α ny nx) : Grid α ny nx :=
  fun y x => m y x * c.moment y x

/-- The kernel entry pairing the switched site `s` with an affected site `t`:
`kernel_unitcell[n][ny-1-y+y', nx-1-x+x']` for `(y,x) = s`, `(y',x') = t`. -/
def kslice (c : DipCtx α ny nx) (s t : Site ny nx) : α :=
  c.kernel_unitcell (dipIdx c s)
    ((ny : ℤ) - 1 - (s.1 : ℤ) + (t.1 : ℤ)) ((nx : ℤ) - 1 - (s.2 : ℤ) + (t.2 : ℤ))

/-- Like `kslice` but for `kernel_perpself_unitcell`. -/
def kpsSlice (c : DipCtx α ny nx) (s t : Site ny nx) : α :=
  c.kernel_perpself_unitcell (dipIdx c s)
    ((ny : ℤ) - 1 - (s.1 : ℤ) + (t.1 : ℤ)) ((nx : ℤ) - 1 - (s.2 : ℤ) + (t.2 : ℤ))

/-- Like `kslice` but for `kernel_perpother_unitcell`. -/
def kpoSlice (c : DipCtx α ny nx) (s t : Site ny nx) : α :=
  c.kernel_perpother_unitcell (dipIdx c s)
    ((ny : ℤ) - 1 - (s.1 : ℤ) + (t.1 : ℤ)) ((nx : ℤ) - 1 - (s.2 : ℤ) + (t.2 : ℤ))

/-- The `E` grid computed by `DipolarEnergy.update` (full recompute) from a
spin configuration, with a kernel family: for every unit-cell offset with a
kernel, the strided mask `partial_m` times the valid-mode convolution of the
doubly reversed kernel with `m*moment`, all scaled by
`prefactor * moment`. -/
def dipUpdE [CommRing α] (c : DipCtx α ny nx) (K : ℤ → Ker α) (m : Grid α ny nx) :
    Grid α ny nx :=
  fun y x => c.prefactor * c.moment y x *
    (∑ oy ∈ Finset.range c.cy, ∑ ox ∈ Finset.range c.cx,
      if c.kernel_unitcell_indices oy ox < 0 then 0
      else
        (if (y : ℕ) % c.cy = oy ∧ (x : ℕ) % c.cx = ox then m y x else 0) *
          convValid (reverseK ny nx (K (c.kernel_unitcell_indices oy ox)))
            (mmoment c m) y x)

/-- `DipolarEnergy.update`: recompute `E` (and `E_perp` when
`USE_PERP_ENERGY`, using the perpendicular-self kernels) in full. -/
def dipUpdate [CommRing α] (c : DipCtx α ny nx) (st : EState α ny nx) :
    EState α ny nx :=
  { st with
    E := dipUpdE c c.kernel_unitcell st.m
    E_perp := if c.use_perp then dipUpdE c c.kernel_perpself_unitcell st.m
      else st.E_perp }

/-- `DipolarEnergy.update_single`: if the switched site's unit-cell offset
has no kernel, return with nothing updated; otherwise add twice the
interaction of the switched magnet with every magnet (sliced from its
kernel), then negate the switched site's own entry. -/
def dipUpdateSingle [CommRing α] (c : DipCtx α ny nx) (s : Site ny nx)
    (st : EState α ny nx) : EState α ny nx :=
  if dipIdx c s < 0 then st
  else
    let mm := mmoment c st.m
    let E1 : Grid α ny nx := fun y x =>
      st.E y x + 2 * (c.prefactor * mm s.1 s.2 * (mm y x * kslice c s (y, x)))
    let Ep1 : Grid α ny nx := fun y x =>
      st.E_perp y x + 2 * (c.prefactor * mm s.1 s.2 * (mm y x * kpoSlice c s (y, x)))
    { st with
      E := fun y x => if (y, x) = s then -E1 y x else E1 y x
      E_perp := if c.use_perp then
          (fun y x => if (y, x) = s then -Ep1 y x else Ep1 y x)
        else st.E_perp }

/-- The members of a batch that share the unit-cell offset `(oy, ox)`
(the group `indices2D_here` obtained from the raveled-offset binning). -/
def dipGroup (c : DipCtx α ny nx) (S : List (Site ny nx)) (oy ox : ℕ) :
    List (Site ny nx) :=
  S.filter (fun s => (s.1 : ℕ) % c.cy = oy ∧ (s.2 : ℕ) % c.cx = ox)

/-- The accumulator field (`convolvedkernel`) one unit-cell group contributes
in `DipolarEnergy.update_multiple`, computed from a kernel family `K`:
empty groups and offsets without a kernel contribute nothing; a group larger
than the cutoff takes the convolution strategy (scatter `self.mm.m` at the
switched sites, convolve once against the full or reduced kernel window, with
wrap boundary iff PBC); otherwise the direct-sum strategy accumulates
`mmoment[s] * kernel[ny-1-y:2*ny-1-y, nx-1-x:2*nx-1-x]` per switched site. -/
def dipConvolvedKernel [CommRing α] [NeZero ny] [NeZero nx] (c : DipCtx α ny nx)
    (K : ℤ → Ker α) (S : List (Site ny nx)) (m : Grid α ny nx) (oy ox : ℕ) :
    Grid α ny nx :=
  if (dipGroup c S oy ox).length = 0 ∨ c.kernel_unitcell_indices oy ox < 0 then
    fun _ _ => 0
  else if (dipGroup c S oy ox).length > c.cutoff then
    let switched : Grid α ny nx := fun y x =>
      if (y, x) ∈ dipGroup c S oy ox then m y x else 0
    let ky := min c.rks (ny - 1)
    let kx := min c.rks (nx - 1)
    let A : Ker α :=
      if c.rks ≠ 0 then
        (fun p q => K (c.kernel_unitcell_indices oy ox)
          ((ny : ℤ) - 1 - ky + p) ((nx : ℤ) - 1 - kx + q))
      else K (c.kernel_unitcell_indices oy ox)
    let ay := if c.rks ≠ 0 then ky else ny - 1
    let ax := if c.rks ≠ 0 then kx else nx - 1
    if c.pbc then convSameWrap switched A ay ax else convSameFill switched A ay ax
  else
    fun y x =>
      ((dipGroup c S oy ox).map (fun s =>
        (m s.1 s.2 * c.moment s.1 s.2) *
          K (c.kernel_unitcell_indices oy ox)
            ((ny : ℤ) - 1 - (s.1 : ℤ) + (y : ℤ)) ((nx : ℤ) - 1 - (s.2 : ℤ) + (x : ℤ)))).sum

/-- `DipolarEnergy.update_multiple`: negate `E` (and `E_perp`) at the
switched sites, then for every unit-cell group add twice
`prefactor * mmoment * convolvedkernel` into `E` (and the perpendicular-other
analogue into `E_perp`). -/
def dipUpdateMultiple [CommRing α] [NeZero ny] [NeZero nx] (c : DipCtx α ny nx)
    (S : List (Site ny nx)) (st : EState α ny nx) : EState α ny nx :=
  let mm := mmoment c st.m
  { st with
    E := fun y x => negAt S st.E y x +
      ∑ oy ∈ Finset.range c.cy, ∑ ox ∈ Finset.range c.cx,
        2 * (c.prefactor * (mm y x * dipConvolvedKernel c c.kernel_unitcell S st.m oy ox y x))
    E_perp := if c.use_perp then
        (fun y x => negAt S st.E_perp y x +
          ∑ oy ∈ Finset.range c.cy, ∑ ox ∈ Finset.range c.cx,
            2 * (c.prefactor * (mm y x * dipConvolvedKernel c c.kernel_perpother_unitcell S st.m oy ox y x)))
      else st.E_perp }

/-- One scheduler step against the dipolar contribution. -/
def dipStep [CommRing α] [NeZero ny] [NeZero nx] (c : DipCtx α ny nx)
    (st : EState α ny nx) : SwitchOp ny nx → EState α ny nx
  | .single s => dipUpdateSingle c s { st with m := flipOne s st.m }
  | .multiple S => dipUpdateMultiple c S { st with m := flipMany S st.m }
  | .recompute => dipUpdate c st

/-- A whole sequence of scheduler steps against the dipolar contribution. -/
def dipRun [CommRing α] [NeZero ny] [NeZero nx] (c : DipCtx α ny nx)
    (st : EState α ny nx) (ops : List (SwitchOp ny nx)) : EState α ny nx :=
  ops.foldl (dipStep c) st

/-- `DipolarEnergy.E_tot = xp.sum(self.E)/2` (each pair counted twice). -/
def dipEtot [DivisionRing α] (E : Grid α ny nx) : α :=
  (∑ y : Fin ny, ∑ x : Fin nx, E y x) / 2

/-! ### ExchangeEnergy -/

/-- The immutable data of an `ExchangeEnergy` bound to a lattice: the
coupling `J`, the nearest-neighbour stencil `local_interaction` (odd shape
`(2*sy+1, 2*sx+1)`), and the lattice read accessors. -/
structure ExchCtx (α : Type) (ny nx : ℕ) where
  J : α
  in_plane : Bool
  use_perp : Bool
  pbc : Bool
  sy : ℕ
  sx : ℕ
  local_interaction : Ker α
  orientationX : Grid α ny nx
  orientationY : Grid α ny nx

/-- Convolve with the lattice's boundary policy, as
`signal.convolve2d(·, ·, mode='same', boundary='wrap' if PBC else 'fill')`. -/
def convSameBoundary [CommRing α] [NeZero ny] [NeZero nx] (pbc : Bool)
    (B : Grid α ny nx) (A : Ker α) (a b : ℕ) : Grid α ny nx :=
  if pbc then convSameWrap B A a b else convSameFill B A a b

/-- The `E` grid `ExchangeEnergy.update` computes from a spin
configuration: the XY form for in-plane lattices, the Ising form for
out-of-plane lattices. -/
def exchE [CommRing α] [NeZero ny] [NeZero nx] (c : ExchCtx α ny nx)
    (m : Grid α ny nx) : Grid α ny nx :=
  if c.in_plane then
    let mx : Grid α ny nx := fun y x => c.orientationX y x * m y x
    let my : Grid α ny nx := fun y x => c.orientationY y x * m y x
    let sum_mx := convSameBoundary c.pbc mx c.local_interaction c.sy c.sx
    let sum_my := convSameBoundary c.pbc my c.local_interaction c.sy c.sx
    fun y x => -c.J * (sum_mx y x * mx y x + sum_my y x * my y x)
  else
    fun y x =>
      -c.J * (convSameBoundary c.pbc m c.local_interaction c.sy c.sx y x * m y x)

/-- The `E_perp` grid `ExchangeEnergy.update` computes (when
`USE_PERP_ENERGY`): the 90°-rotated XY form in-plane, all zeros
out-of-plane. -/
def exchEperp [CommRing α] [NeZero ny] [NeZero nx] (c : ExchCtx α ny nx)
    (m : Grid α ny nx) : Grid α ny nx :=
  if c.in_plane then
    let mx : Grid α ny nx := fun y x => c.orientationX y x * m y x
    let my : Grid α ny nx := fun y x => c.orientationY y x * m y x
    let sum_mx := convSameBoundary c.pbc mx c.local_interaction c.sy c.sx
    let sum_my := convSameBoundary c.pbc my c.local_interaction c.sy c.sx
    fun y x => -c.J * (sum_my y x * mx y x - sum_mx y x * my y x)
  else fun _ _ => 0

/-- `ExchangeEnergy.update`. -/
def exchUpdate [CommRing α] [NeZero ny] [NeZero nx] (c : ExchCtx α ny nx)
    (st : EState α ny nx) : EState α ny nx :=
  { st with
    E := exchE c st.m
    E_perp := if c.use_perp then exchEperp c st.m else st.E_perp }

/-- One scheduler step against the exchange contribution
(`update_single` and `update_multiple` both just call `update`). -/
def exchStep [CommRing α] [NeZero ny] [NeZero nx] (c : ExchCtx α ny nx)
    (st : EState α ny nx) : SwitchOp ny nx → EState α ny nx
  | .single s => exchUpdate c { st with m := flipOne s st.m }
  | .multiple S => exchUpdate c { st with m := flipMany S st.m }
  | .recompute => exchUpdate c st

/-- A whole sequence of scheduler steps against the exchange contribution. -/
def exchRun [CommRing α] [NeZero ny] [NeZero nx] (c : ExchCtx α ny nx)
    (st : EState α ny nx) (ops : List (SwitchOp ny nx)) : EState α ny nx :=
  ops.foldl (exchStep c) st

/-- `ExchangeEnergy.E_tot = xp.sum(self.E)/2`. -/
def exchEtot [DivisionRing α] (E : Grid α ny nx) : α :=
  (∑ y : Fin ny, ∑ x : Fin nx, E y x) / 2

/-! ### Kernel construction (`DipolarEnergy._initialize`)

The distance pipeline of `_initialize` runs on machine floats and passes
through `inf`: `rr_sq[0,0] = inf` masks the self-distance singularity so
that `rr_inv = rr_sq**-0.5` is finite everywhere.  The float value `inf` is
embedded as `⊤ : WithTop α`; the two float power operations `**-0.5` and
`**(-decay_exponent)` are abstracted as functions `invSqrt`/`powFn` supplied
with the lattice description (their numeric values are irrelevant to every
stated property; the extensions `inf**-0.5 = 0`, `0**-0.5 = inf`,
`inf**p = inf` are modelled exactly). -/

/-- The lattice description the energy engine reads.  Modelled from the
spec: the host `Magnets` object (`hotspice/core.py` is not among the
sources) exposes grid dimensions, cell sizes (the coordinate grids `xx`,
`yy` are the uniform meshes `x = j*dx`, `y = i*dy`; the four-mirror
technique of `_initialize` already assumes this), the unit cell, the
orientation/occupation arrays, the moment array, and the flags and tunables
used by the contributions. -/
structure MagDesc (α : Type) (ny nx : ℕ) where
  dx : α
  dy : α
  in_plane : Bool
  pbc : Bool
  use_perp : Bool
  cy : ℕ
  cx : ℕ
  orientationX : ℕ → ℕ → α
  orientationY : ℕ → ℕ → α
  occupation : ℕ → ℕ → α
  moment : Grid α ny nx
  prefactor : α
  cutoff : ℕ
  rks : ℕ
  invSqrt : α → α
  powFn : α → α

variable {β : Type}

/-- `utils.mirror4(arr, negativex, negativey)`: mirror a `(ny, nx)` array
into a `(2*ny-1, 2*nx-1)` array whose centre holds the original `[0,0]`
entry.  The four quadrant assignments of the source overlap on the centre
row/column; the later assignment wins, which the branch order reproduces.
The sign factors are passed as functions (`id`, or negation when the
corresponding `negative·` flag is set). -/
def mirror4 (ny nx : ℕ) (fx fy : β → β) (arr : ℕ → ℕ → β) : Ker β :=
  fun i j =>
    if i ≤ (ny : ℤ) - 1 ∧ j ≤ (nx : ℤ) - 1 then
      fx (fy (arr ((ny : ℤ) - 1 - i).toNat ((nx : ℤ) - 1 - j).toNat))
    else if i ≤ (ny : ℤ) - 1 then
      fy (arr ((ny : ℤ) - 1 - i).toNat (j - ((nx : ℤ) - 1)).toNat)
    else if j ≤ (nx : ℤ) - 1 then
      fx (arr (i - ((ny : ℤ) - 1)).toNat ((nx : ℤ) - 1 - j).toNat)
    else
      arr (i - ((ny : ℤ) - 1)).toNat (j - ((nx : ℤ) - 1)).toNat

section Construction

variable [LinearOrderedField α]

/-- `rrx = self.mm.xx - self.mm.xx[0,0]`, the x-distance grid. -/
def rrx (d : MagDesc α ny nx) : ℕ → ℕ → α := fun _ j => (j : α) * d.dx

/-- `rry = self.mm.yy - self.mm.yy[0,0]`, the y-distance grid. -/
def rry (d : MagDesc α ny nx) : ℕ → ℕ → α := fun i _ => (i : α) * d.dy

/-- `rr_sq = rrx**2 + rry**2` followed by `rr_sq[0,0] = xp.inf`. -/
def rr_sq (d : MagDesc α ny nx) : ℕ → ℕ → WithTop α :=
  fun i j => if i = 0 ∧ j = 0 then ⊤ else ((rrx d i j ^ 2 + rry d i j ^ 2 : α) : WithTop α)

/-- `rr_inv = rr_sq**-0.5` on floats: `inf**-0.5 = 0`, `0**-0.5 = inf`, and
a positive float is sent to its actual inverse square root (`invSqrt`). -/
def rr_inv (d : MagDesc α ny nx) : ℕ → ℕ → WithTop α :=
  fun i j => match rr_sq d i j with
    | ⊤ => (0 : WithTop α)
    | (a : α) => if a = 0 then ⊤ else ((d.invSqrt a : α) : WithTop α)

/-- `rr_inv3 = rr_inv**(-decay_exponent)` on floats: `inf` stays `inf`,
a finite float is sent through the power function (`powFn 0 = 0` for the
float power of a nonnegative exponent). -/
def rr_inv3 (d : MagDesc α ny nx) : ℕ → ℕ → WithTop α :=
  fun i j => match rr_inv d i j with
    | ⊤ => (⊤ : WithTop α)
    | (a : α) => ((d.powFn a : α) : WithTop α)

/-- `rinv3 = mirror4(rr_inv3)` (no sign flips). -/
def rinv3T (d : MagDesc α ny nx) : Ker (WithTop α) :=
  mirror4 ny nx id id (rr_inv3 d)

/-- The finite value of `rinv3` used by the kernel formulas.  By claim C8
(`rinv3T` is never `⊤` on the kernel window) the fall-back value is never
taken. -/
def rinv3R (d : MagDesc α ny nx) : Ker α :=
  fun i j => (rinv3T d i j).untop' 0

/-- The finite value of `rr_inv` (never `⊤` on the lattice window, claim
C8); `rr_inv[0,0] = 0` exactly as on floats. -/
def rr_invR (d : MagDesc α ny nx) : ℕ → ℕ → α :=
  fun i j => (rr_inv d i j).untop' 0

/-- `ux = mirror4(rrx*rr_inv, negativex=True)`: normalized x-direction
cosines over the mirrored window. -/
def uxK (d : MagDesc α ny nx) : Ker α :=
  mirror4 ny nx Neg.neg id (fun i j => rrx d i j * rr_invR d i j)

/-- `uy = mirror4(rry*rr_inv, negativey=True)`. -/
def uyK (d : MagDesc α ny nx) : Ker α :=
  mirror4 ny nx id Neg.neg (fun i j => rry d i j * rr_invR d i j)

/-- The tiled unit-cell orientation (`toolargematrix_ox`): tiling the
`[:unitcell.y, :unitcell.x]` slice is mod-indexing into it. -/
def toolargeOx (d : MagDesc α ny nx) : ℕ → ℕ → α :=
  fun p q => d.orientationX (p % d.cy) (q % d.cx)

/-- The tiled unit-cell orientation (`toolargematrix_oy`). -/
def toolargeOy (d : MagDesc α ny nx) : ℕ → ℕ → α :=
  fun p q => d.orientationY (p % d.cy) (q % d.cx)

/-- The tiled unit-cell occupation (`toolargematrix_o`, out-of-plane). -/
def toolargeO (d : MagDesc α ny nx) : ℕ → ℕ → α :=
  fun p q => d.occupation (p % d.cy) (q % d.cx)

/-- `slice_starty` for the unit-cell cell at row `y`. -/
def sliceStartY (d : MagDesc α ny nx) (y : ℕ) : ℕ :=
  (d.cy - ((ny - 1) % d.cy) + y) % d.cy

/-- `slice_startx` for the unit-cell cell at column `x`. -/
def sliceStartX (d : MagDesc α ny nx) (x : ℕ) : ℕ :=
  (d.cx - ((nx - 1) % d.cx) + x) % d.cx

/-- `ox2`: the window of the tiled x-orientation for the unit-cell cell
`(y, x)`. -/
def ox2K (d : MagDesc α ny nx) (y x : ℕ) : Ker α :=
  fun i j => toolargeOx d (sliceStartY d y + i.toNat) (sliceStartX d x + j.toNat)

/-- `oy2`: the window of the tiled y-orientation for the unit-cell cell
`(y, x)`. -/
def oy2K (d : MagDesc α ny nx) (y x : ℕ) : Ker α :=
  fun i j => toolargeOy d (sliceStartY d y + i.toNat) (sliceStartX d x + j.toNat)

/-- `o2`: the window of the tiled occupation for the unit-cell cell
`(y, x)` (out-of-plane). -/
def o2K (d : MagDesc α ny nx) (y x : ℕ) : Ker α :=
  fun i j => toolargeO d (sliceStartY d y + i.toNat) (sliceStartX d x + j.toNat)

/-- Whether the unit-cell cell `(y, x)` holds a magnet: in-plane, a nonzero
orientation; out-of-plane, a nonzero occupation (the `continue` guards of
the `_initialize` loop). -/
def dOcc (d : MagDesc α ny nx) (y x : ℕ) : Bool :=
  if d.in_plane then !(d.orientationX y x = 0 ∧ d.orientationY y x = 0 : Bool)
  else !(d.occupation y x = 0 : Bool)

/-- The dipole-dipole angular combination producing the kernel of unit-cell
cell `(y, x)` before periodic folding and scaling:
`-(k1 + k2 + k3)*rinv3` in-plane, `o2*rinv3` out-of-plane.
The first orientation factor is passed in ( `(ox1, oy1)` for the normal
kernel, its 90°-rotation for the perpendicular-self kernel). -/
def kernelFormula (d : MagDesc α ny nx) (y x : ℕ) (ox1 oy1 : α) : Ker α :=
  fun i j =>
    -(ox1 * ox2K d y x i j * (3 * uxK d i j ^ 2 - 1)
      + oy1 * oy2K d y x i j * (3 * uyK d i j ^ 2 - 1)
      + 3 * (uxK d i j * uyK d i j) * (ox1 * oy2K d y x i j + oy1 * ox2K d y x i j))
    * rinv3R d i j

/-- The raw (unfolded, unscaled) normal kernel of unit-cell cell `(y, x)`. -/
def rawKernel (d : MagDesc α ny nx) (y x : ℕ) : Ker α :=
  if d.in_plane then
    kernelFormula d y x (d.orientationX y x) (d.orientationY y x)
  else
    fun i j => o2K d y x i j * rinv3R d i j

/-- The raw perpendicular-self kernel: in-plane, the centre magnet's
orientation rotated 90° counterclockwise (`(ox1, oy1) → (-oy1, ox1)`);
out-of-plane, all zeros (zero-energy by symmetry). -/
def rawKernelPerpself (d : MagDesc α ny nx) (y x : ℕ) : Ker α :=
  if d.in_plane then
    kernelFormula d y x (-(d.orientationY y x)) (d.orientationX y x)
  else fun _ _ => 0

/-- The raw perpendicular-other kernel: in-plane, every other magnet's
orientation rotated 90° counterclockwise (`(ox2, oy2) → (-oy2, ox2)`);
out-of-plane, all zeros. -/
def rawKernelPerpother (d : MagDesc α ny nx) (y x : ℕ) : Ker α :=
  if d.in_plane then
    fun i j =>
      -(d.orientationX y x * (-(oy2K d y x i j)) * (3 * uxK d i j ^ 2 - 1)
        + d.orientationY y x * ox2K d y x i j * (3 * uyK d i j ^ 2 - 1)
        + 3 * (uxK d i j * uyK d i j) *
            (d.orientationX y x * ox2K d y x i j + d.orientationY y x * (-(oy2K d y x i j))))
      * rinv3R d i j
  else fun _ _ => 0

/-- Fold in the periodic images if `PBC`, then scale by `1e-7` (the float
literal for `mu_0/(4*pi)`): the finished, cached kernel built from a raw
kernel. -/
def finishKernel (d : MagDesc α ny nx) (k : Ker α) : Ker α :=
  fun i j => (if d.pbc then applyPBC ny nx k i j else k i j) * (1 / 10 ^ 7)

/-- The row-major list of occupied unit-cell offsets, in the order the
`_initialize` double loop appends kernels. -/
def occList (d : MagDesc α ny nx) : List (ℕ × ℕ) :=
  (List.range d.cy).flatMap (fun y =>
    (List.range d.cx).filterMap (fun x => if dOcc d y x then some (y, x) else none))

/-- `kernel_unitcell_indices`: `-1` for an empty cell, otherwise the running
index of the cell's kernel in the kernel list (its rank in the row-major
occupied-cell order). -/
def builtIndices (d : MagDesc α ny nx) : ℕ → ℕ → ℤ :=
  fun y x => if dOcc d y x then ((occList d).indexOf (y, x) : ℤ) else -1

/-- The cached kernel list `kernel_unitcell`, looked up by index; an
out-of-range index (never produced by `kernel_unitcell_indices`) yields the
zero kernel. -/
def builtKernels (d : MagDesc α ny nx) (raw : MagDesc α ny nx → ℕ → ℕ → Ker α)
    (n : ℤ) : Ker α :=
  if h : 0 ≤ n ∧ n.toNat < (occList d).length then
    finishKernel d (raw d ((occList d).get ⟨n.toNat, h.2⟩).1 ((occList d).get ⟨n.toNat, h.2⟩).2)
  else fun _ _ => 0

/-- `DipolarEnergy._initialize` followed by binding: the `DipCtx` a
`DipolarEnergy` holds after `initialize(mm)`. -/
def dipCtxOf (d : MagDesc α ny nx) : DipCtx α ny nx where
  prefactor := d.prefactor
  moment := d.moment
  use_perp := d.use_perp
  pbc := d.pbc
  cy := d.cy
  cx := d.cx
  cutoff := d.cutoff
  rks := d.rks
  kernel_unitcell_indices := builtIndices d
  kernel_unitcell := builtKernels d rawKernel
  kernel_perpself_unitcell := builtKernels d rawKernelPerpself
  kernel_perpother_unitcell := builtKernels d rawKernelPerpother

/-- `ZeemanEnergy.set_field`: for an in-plane lattice the external field
`(B*cos(angle), B*sin(angle))` is supplied as the two grids `Bx`, `By`
(the trigonometric evaluation happens on floats before the arithmetic this
model captures); for an out-of-plane lattice the per-site field `B` is used
directly and `E_factor_perp` is identically zero. -/
def zeemanCtxOf (d : MagDesc α ny nx) (Bx By B : Grid α ny nx) :
    ZeemanCtx α ny nx where
  use_perp := d.use_perp
  E_factor :=
    if d.in_plane then
      fun y x => -(d.moment y x) *
        (Bx y x * d.orientationX y x + By y x * d.orientationY y x)
    else fun y x => -(d.moment y x) * B y x
  E_factor_perp :=
    if d.in_plane then
      fun y x => -(d.moment y x) *
        (By y x * d.orientationX y x - Bx y x * d.orientationY y x)
    else fun _ _ => 0

end Construction

/-- `Energy.initialize`: allocate `E` and `E_perp` as zero grids (the
`_initialize`/`update` calls that follow are applied separately). -/
def initState [CommRing α] (m : Grid α ny nx) : EState α ny nx :=
  ⟨m, fun _ _ => 0, fun _ _ => 0⟩

/-! ### Energy.energy_switch -/

/-- `Energy.energy_switch(indices2D)` on the shared base class, when a list
of candidate sites is given: `-2*self.E[indices2D[0], indices2D[1]]`, one
value per candidate in the same order.  It reads `self.E` and mutates
nothing (it returns the list; in this embedding the absence of mutation is
expressed by the type, which returns no state). -/
def energySwitchAt [CommRing α] (E : Grid α ny nx) (S : List (Site ny nx)) :
    List α :=
  S.map (fun s => -2 * E s.1 s.2)

/-- `Energy.energy_switch()` with `indices2D=None`: `-2*self.E`, the whole
grid at once, again without touching any state. -/
def energySwitchAll [CommRing α] (E : Grid α ny nx) : Grid α ny nx :=
  fun y x => -2 * E y x

/-! ### Predicates used by the theorems -/

/-- The kernel entry pairing switched site `s` with affected site `t`, for
an arbitrary kernel family (so that the same lemmas serve
`kernel_unitcell`, `kernel_perpself_unitcell` and
`kernel_perpother_unitcell`). -/
def dipSliceOf (c : DipCtx α ny nx) (Kf : ℤ → Ker α) (s t : Site ny nx) : α :=
  Kf (dipIdx c s)
    ((ny : ℤ) - 1 - (s.1 : ℤ) + (t.1 : ℤ)) ((nx : ℤ) - 1 - (s.2 : ℤ) + (t.2 : ℤ))

/-- The structural properties of the cached dipolar kernels that the
incremental updates rely on, all established by the kernel construction
(claim C8 proves the centre-zero parts for the built kernels; the symmetry
and the vanishing on unoccupied cells are the dipole formula's symmetry in
the pair and the zero orientation/occupation factors of empty cells):
the self-offset (centre) entry of every kernel is zero; the normal kernel is
symmetric in the pair; the perpendicular-other entry of `(s, t)` is the
perpendicular-self entry of `(t, s)`; and all kernels vanish when the
affected site's unit-cell offset holds no magnet. -/
def dipGood [CommRing α] (c : DipCtx α ny nx) : Prop :=
  (∀ s : Site ny nx, dipValid c s → kslice c s s = 0) ∧
  (∀ s : Site ny nx, dipValid c s → kpsSlice c s s = 0) ∧
  (∀ s : Site ny nx, dipValid c s → kpoSlice c s s = 0) ∧
  (∀ s t : Site ny nx, dipValid c s → dipValid c t → kslice c s t = kslice c t s) ∧
  (∀ s t : Site ny nx, dipValid c s → dipValid c t → kpoSlice c s t = kpsSlice c t s) ∧
  (∀ s t : Site ny nx, dipValid c s → ¬dipValid c t → kslice c s t = 0) ∧
  (∀ s t : Site ny nx, dipValid c s → ¬dipValid c t → kpoSlice c s t = 0) ∧
  (∀ s t : Site ny nx, dipValid c s → ¬dipValid c t → kpsSlice c s t = 0)

/-- The no-drift invariant of the specification: the stored `E` grid (and
`E_perp` when the perpendicular mode is enabled) equals what a full
recompute of the current spin configuration would produce. -/
def dipConsistent [CommRing α] (c : DipCtx α ny nx) (st : EState α ny nx) : Prop :=
  st.E = dipUpdE c c.kernel_unitcell st.m ∧
  (c.use_perp = true → st.E_perp = dipUpdE c c.kernel_perpself_unitcell st.m)

/-- The no-drift invariant for the Zeeman contribution. -/
def zeemanConsistent [CommRing α] (c : ZeemanCtx α ny nx) (st : EState α ny nx) :
    Prop :=
  st.E = (zeemanUpdate c st).E ∧
  (c.use_perp = true → st.E_perp = (zeemanUpdate c st).E_perp)

/-- The no-drift invariant for the exchange contribution. -/
def exchConsistent [CommRing α] [NeZero ny] [NeZero nx] (c : ExchCtx α ny nx)
    (st : EState α ny nx) : Prop :=
  st.E = (exchUpdate c st).E ∧
  (c.use_perp = true → st.E_perp = (exchUpdate c st).E_perp)

/-- A switch operation the scheduler may legally dispatch for which every
unit-cell group of a batch stays on the direct-sum side of
`SIMULTANEOUS_SWITCHES_CONVOLUTION_OR_SUM_CUTOFF`: the batch lists distinct
sites and no group exceeds the cutoff. -/
def opOK (c : DipCtx α ny nx) : SwitchOp ny nx → Prop
  | .single _ => True
  | .multiple S => S.Nodup ∧ ∀ oy ox : ℕ, (dipGroup c S oy ox).length ≤ c.cutoff
  | .recompute => True

/-- All operations of a sequence are direct-sum-sided batches or singles. -/
def runOK (c : DipCtx α ny nx) (ops : List (SwitchOp ny nx)) : Prop :=
  ∀ op ∈ ops, opOK c op

/-- The common normal form of a direct-sum-sided batch update: spins
flipped, `E` and `E_perp` negated at the switched sites, and twice the
superposed pairwise interaction of the switched magnets (with the final
moments) added. -/
def dipBatchResult [CommRing α] (c : DipCtx α ny nx) (S : List (Site ny nx))
    (st : EState α ny nx) : EState α ny nx :=
  let mF := flipMany S st.m
  let mm : Grid α ny nx := mmoment c mF
  { m := mF
    E := fun y x => negAt S st.E y x +
      2 * (c.prefactor * (mm y x *
        (S.map (fun s => if dipValid c s then mm s.1 s.2 * kslice c s (y, x) else 0)).sum))
    E_perp := if c.use_perp then
        (fun y x => negAt S st.E_perp y x +
          2 * (c.prefactor * (mm y x *
            (S.map (fun s => if dipValid c s then mm s.1 s.2 * kpoSlice c s (y, x) else 0)).sum)))
      else st.E_perp }

/-- Cyclically shift a grid's origin by `(sy, sx)` (toroidal relabelling of
the lattice sites). -/
def shiftGrid (sy : Fin ny) (sx : Fin nx) (g : Grid α ny nx) : Grid α ny nx :=
  fun y x => g (y + sy) (x + sx)

/-! ### Concrete instances for counterexamples and witnesses

A 1×2 out-of-plane lattice with a trivial 1×1 unit cell, every site
occupied, no PBC, `REDUCED_KERNEL_SIZE = 0` and uniform moment `2`.  Its
kernel window is `1 × 3` with centre `(0, 1)`; `(_initialize` would cache
`1e-7 * [1, 0, 1]`; the scale of the kernel and the integer carrier are
irrelevant to the statements, so the kernel `[1, 0, 1]` over `ℤ` is used).
`cutoff = 0` forces the convolution strategy on a one-site batch;
`cutoff = 1` forces the direct-sum strategy on the same batch. -/

/-- The 1×2 test context whose cutoff forces the convolution strategy. -/
def cexCtxConv : DipCtx ℤ 1 2 where
  prefactor := 1
  moment := fun _ _ => 2
  use_perp := false
  pbc := false
  cy := 1
  cx := 1
  cutoff := 0
  rks := 0
  kernel_unitcell_indices := fun _ _ => 0
  kernel_unitcell := fun _ => fun i j => if i = 0 ∧ (j = 0 ∨ j = 2) then 1 else 0
  kernel_perpself_unitcell := fun _ => fun _ _ => 0
  kernel_perpother_unitcell := fun _ => fun _ _ => 0

/-- The same context with the cutoff raised so the one-site batch takes the
direct-sum strategy. -/
def cexCtxDirect : DipCtx ℤ 1 2 :=
  { cexCtxConv with cutoff := 1 }

/-- The all-up spin configuration on the 1×2 test lattice. -/
def cexM0 : Grid ℤ 1 2 := fun _ _ => 1

/-- The second site of the 1×2 test lattice. -/
def cexSite : Site 1 2 := (0, 1)

/-- A consistent energy state for the all-up configuration (its `E` grid is
the full recompute). -/
def cexSt : EState ℤ 1 2 :=
  ⟨cexM0, dipUpdE cexCtxConv cexCtxConv.kernel_unitcell cexM0, fun _ _ => 0⟩

/-- The state right after the external scheduler flipped `cexSite` (spin
flipped, energy grids not yet updated) — the precondition of
`update_multiple`. -/
def cexStFlipped : EState ℤ 1 2 :=
  ⟨flipMany [cexSite] cexM0, cexSt.E, fun _ _ => 0⟩

/-- A 1×2 test context whose unit cell is the whole lattice and whose
second cell is empty: `kernel_unitcell_indices[0, 1] = -1`. -/
def cexCtxEmpty : DipCtx ℤ 1 2 where
  prefactor := 1
  moment := fun _ _ => 1
  use_perp := false
  pbc := false
  cy := 1
  cx := 2
  cutoff := 5
  rks := 0
  kernel_unitcell_indices := fun _ x => if x = 0 then 0 else -1
  kernel_unitcell := fun _ => fun i j => if i = 0 ∧ (j = 0 ∨ j = 2) then 1 else 0
  kernel_perpself_unitcell := fun _ => fun _ _ => 0
  kernel_perpother_unitcell := fun _ => fun _ _ => 0

/-- A state with a nonzero energy grid, used to observe that the dispatch
on an empty cell silently changes nothing. -/
def cexStE : EState ℤ 1 2 :=
  ⟨cexM0, fun _ _ => 7, fun _ _ => 5⟩

/-- A concrete Zeeman context on the 1×2 lattice (uniform factor 3). -/
def czW : ZeemanCtx ℤ 1 2 :=
  ⟨false, fun _ _ => 3, fun _ _ => 0⟩

/-- A consistent Zeeman state for the all-up configuration. -/
def stzW : EState ℤ 1 2 :=
  ⟨cexM0, fun y x => cexM0 y x * czW.E_factor y x, fun _ _ => 0⟩

/-- A concrete exchange context on the 1×2 lattice (out-of-plane,
4-neighbour stencil). -/
def ceW : ExchCtx ℤ 1 2 where
  J := 1
  in_plane := false
  use_perp := false
  pbc := false
  sy := 1
  sx := 1
  local_interaction := fun i j =>
    if (i = 1 ∧ (j = 0 ∨ j = 2)) ∨ (j = 1 ∧ (i = 0 ∨ i = 2)) then 1 else 0
  orientationX := fun _ _ => 0
  orientationY := fun _ _ => 0

/-- A consistent exchange state (freshly bound and recomputed). -/
def steW : EState ℤ 1 2 := exchUpdate ceW (initState cexM0)

/-- An unfolded base kernel on a 2×1 PBC lattice (one entry set, the rest
zero), whose folded form `applyPBC 2 1 c6Base` a periodic context caches. -/
def c6Base : ℤ → Ker ℚ := fun _ => fun i j => if i = 0 ∧ j = 0 then 1 else 0

/-- A second base kernel, folded into the perpendicular-self cache. -/
def c6BaseP : ℤ → Ker ℚ := fun _ => fun i j => if i = 2 ∧ j = 0 then 1 else 0

/-- A periodic 2×1 context (trivial 1×1 unit cell, every site occupied,
uniform moment) whose cached kernels are the `apply_PBC`-folded images of
`c6Base` and `c6BaseP`. -/
def c6Ctx : DipCtx ℚ 2 1 where
  prefactor := 1
  moment := fun _ _ => 1
  use_perp := true
  pbc := true
  cy := 1
  cx := 1
  cutoff := 5
  rks := 0
  kernel_unitcell_indices := fun _ _ => 0
  kernel_unitcell := fun n => applyPBC 2 1 (c6Base n)
  kernel_perpself_unitcell := fun n => applyPBC 2 1 (c6BaseP n)
  kernel_perpother_unitcell := fun _ => fun _ _ => 0

/-- A state on the 2×1 periodic lattice with an inhomogeneous spin
configuration (so the shift below is not a fixed point of the data). -/
def c6St : EState ℚ 2 1 :=
  ⟨fun y _ => if y = 0 then 1 else -1, fun _ _ => 0, fun _ _ => 0⟩

/-- A concrete out-of-plane lattice description on the 1×2 grid
(`in_plane = false`, `USE_PERP_ENERGY` deliberately left on, so every
perpendicular code path runs). -/
def c7Mag : MagDesc ℚ 1 2 where
  dx := 1
  dy := 1
  in_plane := false
  pbc := false
  use_perp := true
  cy := 1
  cx := 1
  orientationX := fun _ _ => 0
  orientationY := fun _ _ => 0
  occupation := fun _ _ => 1
  moment := fun _ _ => 1
  prefactor := 1
  cutoff := 0
  rks := 0
  invSqrt := fun _ => 0
  powFn := fun _ => 0

/-- A mixed operation sequence exercising all three dispatch surfaces. -/
def c7Ops : List (SwitchOp 1 2) :=
  [SwitchOp.recompute, SwitchOp.single ((0 : Fin 1), (0 : Fin 2)),
    SwitchOp.multiple [((0 : Fin 1), (1 : Fin 2))]]

/-- An out-of-plane exchange context on the 1×2 lattice with perpendicular
energy tracking deliberately on. -/
def c7Exch : ExchCtx ℚ 1 2 where
  J := 1
  in_plane := false
  use_perp := true
  pbc := false
  sy := 1
  sx := 1
  local_interaction := fun i j =>
    if (i = 1 ∧ (j = 0 ∨ j = 2)) ∨ (j = 1 ∧ (i = 0 ∨ i = 2)) then 1 else 0
  orientationX := fun _ _ => 0
  orientationY := fun _ _ => 0

/-- The all-up spin configuration on the 1×2 lattice over `ℚ`. -/
def c7M : Grid ℚ 1 2 := fun _ _ => 1

/-- A concrete in-plane periodic 2×2 lattice description with unit cell
sizes `dx = dy = 1`, uniform x-orientation, and the cubic float power
(`powFn a = a^3`, so `powFn 0 = 0` as on machine floats). -/
def c8Mag : MagDesc ℚ 2 2 where
  dx := 1
  dy := 1
  in_plane := true
  pbc := true
  use_perp := true
  cy := 1
  cx := 1
  orientationX := fun _ _ => 1
  orientationY := fun _ _ => 0
  occupation := fun _ _ => 1
  moment := fun _ _ => 1
  prefactor := 1
  cutoff := 0
  rks := 0
  invSqrt := fun _ => 1
  powFn := fun a => a ^ 3

/-! ## Theorems -/

section Pointwise

variable [CommRing α]

theorem convValid_reverseK (A : Ker α) (B : Grid α ny nx) (i : Fin ny) (j : Fin nx) :
    convValid (reverseK ny nx A) B i j =
      ∑ u : Fin ny, ∑ v : Fin nx,
        A ((ny : ℤ) - 1 - (i : ℤ) + (u : ℤ)) ((nx : ℤ) - 1 - (j : ℤ) + (v : ℤ)) * B u v := by
  unfold convValid reverseK
  refine Finset.sum_congr rfl fun u _ => Finset.sum_congr rfl fun v _ => ?_
  have hx : 2 * (ny : ℤ) - 2 - ((i : ℤ) + (ny : ℤ) - 1 - (u : ℤ))
      = (ny : ℤ) - 1 - (i : ℤ) + (u : ℤ) := by ring
  have hy : 2 * (nx : ℤ) - 2 - ((j : ℤ) + (nx : ℤ) - 1 - (v : ℤ))
      = (nx : ℤ) - 1 - (j : ℤ) + (v : ℤ) := by ring
  rw [hx, hy]

/-- The full recompute at a site, in sliced-kernel form: zero at a site
whose unit-cell offset has no kernel, and otherwise
`prefactor * moment * m * Σ kernel[…, …] * (m*moment)`. -/
theorem dipUpdE_apply (c : DipCtx α ny nx) (K : ℤ → Ker α) (m : Grid α ny nx)
    (hcy : 0 < c.cy) (hcx : 0 < c.cx) (y : Fin ny) (x : Fin nx) :
    dipUpdE c K m y x =
      if dipValid c (y, x) then
        c.prefactor * c.moment y x *
          (m y x * ∑ u : Fin ny, ∑ v : Fin nx,
            dipSliceOf c K (y, x) (u, v) * (m u v * c.moment u v))
      else 0 := by
  unfold dipUpdE
  have outer0 : ∀ oy ∈ Finset.range c.cy, oy ≠ (y : ℕ) % c.cy →
      (∑ ox ∈ Finset.range c.cx,
        if c.kernel_unitcell_indices oy ox < 0 then 0
        else (if (y : ℕ) % c.cy = oy ∧ (x : ℕ) % c.cx = ox then m y x else 0) *
          convValid (reverseK ny nx (K (c.kernel_unitcell_indices oy ox)))
            (mmoment c m) y x) = 0 := by
    intro oy _ hne
    refine Finset.sum_eq_zero fun ox _ => ?_
    have hmatch : ¬((y : ℕ) % c.cy = oy ∧ (x : ℕ) % c.cx = ox) :=
      fun hc => hne hc.1.symm
    by_cases hidx : c.kernel_unitcell_indices oy ox < 0
    · rw [if_pos hidx]
    · rw [if_neg hidx, if_neg hmatch, zero_mul]
  rw [Finset.sum_eq_single_of_mem ((y : ℕ) % c.cy)
    (Finset.mem_range.mpr (Nat.mod_lt _ hcy)) outer0]
  have inner0 : ∀ ox ∈ Finset.range c.cx, ox ≠ (x : ℕ) % c.cx →
      (if c.kernel_unitcell_indices ((y : ℕ) % c.cy) ox < 0 then 0
      else (if (y : ℕ) % c.cy = (y : ℕ) % c.cy ∧ (x : ℕ) % c.cx = ox then m y x else 0) *
        convValid (reverseK ny nx (K (c.kernel_unitcell_indices ((y : ℕ) % c.cy) ox)))
          (mmoment c m) y x) = 0 := by
    intro ox _ hne
    have hmatch : ¬((y : ℕ) % c.cy = (y : ℕ) % c.cy ∧ (x : ℕ) % c.cx = ox) :=
      fun hc => hne hc.2.symm
    by_cases hidx : c.kernel_unitcell_indices ((y : ℕ) % c.cy) ox < 0
    · rw [if_pos hidx]
    · rw [if_neg hidx, if_neg hmatch, zero_mul]
  rw [Finset.sum_eq_single_of_mem ((x : ℕ) % c.cx)
    (Finset.mem_range.mpr (Nat.mod_lt _ hcx)) inner0]
  have hidx : c.kernel_unitcell_indices ((y : ℕ) % c.cy) ((x : ℕ) % c.cx)
      = dipIdx c (y, x) := rfl
  rw [hidx]
  by_cases h : dipValid c (y, x)
  · have hneg : ¬dipIdx c (y, x) < 0 := by unfold dipValid at h; omega
    rw [if_neg hneg, if_pos h,
      if_pos (⟨rfl, rfl⟩ : (y : ℕ) % c.cy = (y : ℕ) % c.cy ∧ (x : ℕ) % c.cx = (x : ℕ) % c.cx),
      convValid_reverseK]
    rfl
  · have hpos : dipIdx c (y, x) < 0 := by unfold dipValid at h; omega
    rw [if_pos hpos, if_neg h, mul_zero]

/-- The full recompute is zero at a site whose unit-cell offset has no
kernel. -/
theorem dipUpdE_invalid (c : DipCtx α ny nx) (K : ℤ → Ker α) (m : Grid α ny nx)
    (hcy : 0 < c.cy) (hcx : 0 < c.cx) (y : Fin ny) (x : Fin nx)
    (h : ¬dipValid c (y, x)) : dipUpdE c K m y x = 0 := by
  rw [dipUpdE_apply c K m hcy hcx, if_neg h]

end Pointwise

section EasyClaims

variable [CommRing α]

/-- C5: for every state of the `E` grid, `DipolarEnergy.E_tot` and
`ExchangeEnergy.E_tot` equal exactly half the sum of all entries of `E`,
while `ZeemanEnergy.E_tot` equals the full sum with no division. -/
theorem claim_C5_Etot_convention {F : Type} [Field F] (E : Grid F ny nx) :
    dipEtot E = (∑ y : Fin ny, ∑ x : Fin nx, E y x) / 2 ∧
    exchEtot E = (∑ y : Fin ny, ∑ x : Fin nx, E y x) / 2 ∧
    zeemanEtot E = ∑ y : Fin ny, ∑ x : Fin nx, E y x :=
  ⟨rfl, rfl, rfl⟩

/-- C9: `energy_switch(indices2D)` returns one value per candidate site, in
the input's order, each exactly `-2` times the current `E` entry of that
site; being a pure function of `E` it mutates neither `E`, `E_perp`, nor any
other state (the embedding returns only the list). -/
theorem claim_C9_energy_switch (E : Grid α ny nx) (S : List (Site ny nx)) :
    (energySwitchAt E S).length = S.length ∧
    ∀ i : Fin S.length,
      (energySwitchAt E S).get (Fin.cast (by simp [energySwitchAt]) i) =
        -2 * E (S.get i).1 (S.get i).2 := by
  refine ⟨by simp [energySwitchAt], fun i => ?_⟩
  simp [energySwitchAt]

/-- C10: `energy_switch()` with `indices2D` omitted returns `-2` times the
entire `E` grid — for every site exactly the value the indexed form would
return for that site — again without mutating any state. -/
theorem claim_C10_energy_switch_all (E : Grid α ny nx) :
    (∀ y x, energySwitchAll E y x = -2 * E y x) ∧
    ∀ S : List (Site ny nx),
      energySwitchAt E S = S.map (fun s => energySwitchAll E s.1 s.2) :=
  ⟨fun _ _ => rfl, fun _ => rfl⟩

end EasyClaims

section ConvDirectBug

/-- C2: the two batch strategies of `DipolarEnergy.update_multiple` are not
numerically equivalent: at the recorded failing input (1×2 out-of-plane
lattice, uniform moment 2, one flipped site, full kernel window, no PBC)
lowering the cutoff to force the convolution strategy yields the `E` grid
`[0, -4]` while raising it to force the direct-sum strategy yields
`[-4, -4]` — the convolution branch scatters `self.mm.m` instead of
`self.mm.m * self.mm.moment` into `switched_field`, losing one factor of
the switched magnets' moments. -/
theorem claim_C2_strategy_mismatch :
    (dipUpdateMultiple cexCtxConv [cexSite] cexStFlipped).E ≠
      (dipUpdateMultiple cexCtxDirect [cexSite] cexStFlipped).E := by
  decide

/-- C3 counterexample: with the same failing input, `update_multiple` on the
convolution side of the threshold does not match the sequential application
of `update_single` (which yields `[-4, -4]`). -/
theorem claim_C3_cex :
    (dipStep cexCtxConv cexSt (SwitchOp.multiple [cexSite])).E ≠
      (dipRun cexCtxConv cexSt ([cexSite].map SwitchOp.single)).E := by
  decide

/-- C1 counterexample: a consistent state followed by one batch switch that
takes the convolution strategy no longer matches the full recompute of the
final configuration. -/
theorem claim_C1_cex :
    (dipRun cexCtxConv cexSt [SwitchOp.multiple [cexSite]]).E ≠
      dipUpdE cexCtxConv cexCtxConv.kernel_unitcell
        (dipRun cexCtxConv cexSt [SwitchOp.multiple [cexSite]]).m := by
  decide

end ConvDirectBug

section EmptyCellDispatch

variable [CommRing α] [NeZero ny] [NeZero nx]

/-- C4 counterexample: dispatching `update_single` on a site whose unit-cell
offset holds no magnet does not fail or surface anything to the caller: it
returns with the state — including a deliberately arbitrary energy grid —
bit-for-bit unchanged. -/
theorem claim_C4_cex : dipUpdateSingle cexCtxEmpty cexSite cexStE = cexStE := by
  decide

/-- One unit-cell group of a batch consisting of a single empty-cell site
contributes nothing. -/
theorem dipConvolvedKernel_invalid_single (c : DipCtx α ny nx) (K : ℤ → Ker α)
    (s : Site ny nx) (m : Grid α ny nx) (h : dipIdx c s < 0) (oy ox : ℕ)
    (y : Fin ny) (x : Fin nx) :
    dipConvolvedKernel c K [s] m oy ox y x = 0 := by
  by_cases hmem : ((s.1 : ℕ) % c.cy = oy ∧ (s.2 : ℕ) % c.cx = ox)
  · have hg : dipGroup c [s] oy ox = [s] := by
      simp [dipGroup, List.filter, hmem.1, hmem.2]
    have hidx : c.kernel_unitcell_indices oy ox < 0 := by
      rw [← hmem.1, ← hmem.2]; exact h
    rw [dipConvolvedKernel, if_pos (Or.inr hidx)]
  · have hg : dipGroup c [s] oy ox = [] := by
      simp only [dipGroup, List.filter_eq_nil_iff]
      intro a ha
      simp only [List.mem_singleton] at ha
      subst ha
      simpa using hmem
    rw [dipConvolvedKernel, if_pos (Or.inl (by rw [hg]; rfl))]

/-- C4 (amended): the dispatch on an empty-cell site is silent, not loud:
`update_single` returns with no state change at all, and `update_multiple`
negates `E` (and, when enabled, `E_perp`) at the requested site and then
skips the site's group, adding no interaction. -/
theorem claim_C4_amended (c : DipCtx α ny nx) (s : Site ny nx)
    (st : EState α ny nx) (h : dipIdx c s < 0) :
    dipUpdateSingle c s st = st ∧
    (dipUpdateMultiple c [s] st).E = negAt [s] st.E ∧
    (dipUpdateMultiple c [s] st).E_perp =
      if c.use_perp then negAt [s] st.E_perp else st.E_perp := by
  refine ⟨by rw [dipUpdateSingle, if_pos h], ?_, ?_⟩
  · show (fun y x => negAt [s] st.E y x + _) = _
    funext y x
    rw [Finset.sum_congr rfl fun oy _ => Finset.sum_congr rfl fun ox _ => by
      rw [dipConvolvedKernel_invalid_single c _ s st.m h oy ox y x, mul_zero,
        mul_zero, mul_zero]]
    simp
  · show (if c.use_perp then _ else st.E_perp) = _
    by_cases hup : c.use_perp
    · rw [if_pos hup, if_pos hup]
      funext y x
      rw [Finset.sum_congr rfl fun oy _ => Finset.sum_congr rfl fun ox _ => by
        rw [dipConvolvedKernel_invalid_single c _ s st.m h oy ox y x, mul_zero,
          mul_zero, mul_zero]]
      simp
    · rw [if_neg hup, if_neg hup]

/-- Witness for C4 (amended) at the concrete empty-cell input. -/
theorem claim_C4_witness :
    dipUpdateSingle cexCtxEmpty cexSite cexStE = cexStE ∧
    (dipUpdateMultiple cexCtxEmpty [cexSite] cexStE).E = negAt [cexSite] cexStE.E ∧
    (dipUpdateMultiple cexCtxEmpty [cexSite] cexStE).E_perp =
      if cexCtxEmpty.use_perp then negAt [cexSite] cexStE.E_perp else cexStE.E_perp :=
  claim_C4_amended cexCtxEmpty cexSite cexStE (by decide)

end EmptyCellDispatch

section SumHelpers

variable [CommRing α]

theorem sum2_sub_many (f g : Fin ny → Fin nx → α) (S : List (Site ny nx))
    (hnd : S.Nodup) (h : ∀ u v, ((u, v) : Site ny nx) ∉ S → f u v = g u v) :
    (∑ u : Fin ny, ∑ v : Fin nx, f u v) =
      (∑ u : Fin ny, ∑ v : Fin nx, g u v) +
        (S.map (fun s => f s.1 s.2 - g s.1 s.2)).sum := by
  classical
  have key : (∑ u : Fin ny, ∑ v : Fin nx, (f u v - g u v)) =
      (S.map (fun s => f s.1 s.2 - g s.1 s.2)).sum := by
    have h1 : (∑ u : Fin ny, ∑ v : Fin nx, (f u v - g u v)) =
        ∑ p ∈ Finset.univ.filter (fun p : Site ny nx => p ∈ S),
          (f p.1 p.2 - g p.1 p.2) := by
      rw [← Finset.sum_product', Finset.univ_product_univ, Finset.sum_filter]
      refine Finset.sum_congr rfl fun p _ => ?_
      by_cases hp : p ∈ S
      · rw [if_pos hp]
      · rw [if_neg hp, sub_eq_zero.mpr (h p.1 p.2 hp)]
    have h2 : ∑ p ∈ Finset.univ.filter (fun p : Site ny nx => p ∈ S),
        (f p.1 p.2 - g p.1 p.2) = ∑ p ∈ S.toFinset, (f p.1 p.2 - g p.1 p.2) := by
      congr 1
      ext p
      simp
    rw [h1, h2]
    exact List.sum_toFinset (fun p => f p.1 p.2 - g p.1 p.2) hnd
  calc (∑ u : Fin ny, ∑ v : Fin nx, f u v)
      = ∑ u : Fin ny, ∑ v : Fin nx, (g u v + (f u v - g u v)) :=
        Finset.sum_congr rfl fun u _ => Finset.sum_congr rfl fun v _ => by ring
    _ = (∑ u : Fin ny, ∑ v : Fin nx, g u v) +
        ∑ u : Fin ny, ∑ v : Fin nx, (f u v - g u v) := by
        rw [← Finset.sum_add_distrib]
        exact Finset.sum_congr rfl fun u _ => Finset.sum_add_distrib
    _ = _ := by rw [key]

theorem flipMany_mem (S : List (Site ny nx)) (m : Grid α ny nx)
    {s : Site ny nx} (hs : s ∈ S) : flipMany S m s.1 s.2 = -(m s.1 s.2) := by
  unfold flipMany
  exact if_pos hs

theorem flipMany_not_mem (S : List (Site ny nx)) (m : Grid α ny nx)
    {s : Site ny nx} (hs : s ∉ S) : flipMany S m s.1 s.2 = m s.1 s.2 := by
  unfold flipMany
  exact if_neg hs

theorem flipOne_self (s : Site ny nx) (m : Grid α ny nx) :
    flipOne s m s.1 s.2 = -(m s.1 s.2) := by
  unfold flipOne
  exact if_pos rfl

theorem flipOne_other (s t : Site ny nx) (m : Grid α ny nx) (h : t ≠ s) :
    flipOne s m t.1 t.2 = m t.1 t.2 := by
  unfold flipOne
  exact if_neg h

theorem flipMany_mem_ab (S : List (Site ny nx)) (m : Grid α ny nx) {a : Fin ny}
    {b : Fin nx} (h : ((a, b) : Site ny nx) ∈ S) : flipMany S m a b = -(m a b) := by
  unfold flipMany
  exact if_pos h

theorem flipMany_not_mem_ab (S : List (Site ny nx)) (m : Grid α ny nx) {a : Fin ny}
    {b : Fin nx} (h : ((a, b) : Site ny nx) ∉ S) : flipMany S m a b = m a b := by
  unfold flipMany
  exact if_neg h

end SumHelpers

section FlipLemmas

variable [CommRing α]

/-- Flipping a spin on an unoccupied unit-cell offset does not change the
full recompute (the kernels of occupied cells vanish on unoccupied cells,
and unoccupied rows of `E` are zero). -/
theorem dipUpdE_flip_invalid (c : DipCtx α ny nx) (K : ℤ → Ker α)
    (m : Grid α ny nx) (s : Site ny nx) (hcy : 0 < c.cy) (hcx : 0 < c.cx)
    (hs : ¬dipValid c s)
    (hvan : ∀ t, dipValid c t → dipSliceOf c K t s = 0) :
    dipUpdE c K (flipOne s m) = dipUpdE c K m := by
  funext y x
  rw [dipUpdE_apply c K (flipOne s m) hcy hcx, dipUpdE_apply c K m hcy hcx]
  by_cases ht : dipValid c (y, x)
  · rw [if_pos ht, if_pos ht]
    have hne : ((y, x) : Site ny nx) ≠ s := fun he => hs (he ▸ ht)
    rw [flipOne_other s (y, x) m hne]
    have hsummand : (∑ u : Fin ny, ∑ v : Fin nx,
        dipSliceOf c K (y, x) (u, v) * (flipOne s m u v * c.moment u v)) =
        (∑ u : Fin ny, ∑ v : Fin nx,
          dipSliceOf c K (y, x) (u, v) * (m u v * c.moment u v)) := by
      refine Finset.sum_congr rfl fun u _ => Finset.sum_congr rfl fun v _ => ?_
      by_cases huv : ((u, v) : Site ny nx) = s
      · have h0 : dipSliceOf c K (y, x) (u, v) = 0 := by
          rw [huv]; exact hvan (y, x) ht
        rw [h0, zero_mul, zero_mul]
      · rw [flipOne_other s (u, v) m huv]
    rw [hsummand]
  · rw [if_neg ht, if_neg ht]

/-- The single-switch incremental update is exact: after one flip (already
applied to the configuration), adding twice the switched magnet's sliced
interaction and negating its own entry reproduces the full recompute on the
new configuration.  Stated for a pair of kernel families so that it serves
both `E` (`A = B = kernel_unitcell`) and `E_perp`
(`A = kernel_perpother_unitcell`, `B = kernel_perpself_unitcell`). -/
theorem dipUpdE_flip_single (c : DipCtx α ny nx) (A B : ℤ → Ker α)
    (m : Grid α ny nx) (s : Site ny nx) (hcy : 0 < c.cy) (hcx : 0 < c.cx)
    (hs : dipValid c s)
    (hA0 : dipSliceOf c A s s = 0)
    (hsym : ∀ t, dipValid c t → dipSliceOf c A s t = dipSliceOf c B t s)
    (hvanA : ∀ t, ¬dipValid c t → dipSliceOf c A s t = 0)
    (y : Fin ny) (x : Fin nx) :
    dipUpdE c B (flipOne s m) y x =
      (if ((y, x) : Site ny nx) = s then
        -(dipUpdE c B m y x +
          2 * (c.prefactor * mmoment c (flipOne s m) s.1 s.2 *
            (mmoment c (flipOne s m) y x * dipSliceOf c A s (y, x))))
      else
        dipUpdE c B m y x +
          2 * (c.prefactor * mmoment c (flipOne s m) s.1 s.2 *
            (mmoment c (flipOne s m) y x * dipSliceOf c A s (y, x)))) := by
  have hBss : dipSliceOf c B s s = 0 := (hsym s hs) ▸ hA0
  have hsum : ∀ t : Site ny nx, dipValid c t →
      (∑ u : Fin ny, ∑ v : Fin nx,
        dipSliceOf c B t (u, v) * (flipOne s m u v * c.moment u v)) =
      (∑ u : Fin ny, ∑ v : Fin nx,
        dipSliceOf c B t (u, v) * (m u v * c.moment u v)) +
        dipSliceOf c B t s * ((-(m s.1 s.2) - m s.1 s.2) * c.moment s.1 s.2) := by
    intro t ht
    rw [sum2_sub_many _ _ [s] (List.nodup_singleton s)
      (fun u v huv => by
        rw [flipOne_other s (u, v) m (by simpa using huv)])]
    simp only [List.map_singleton, List.sum_singleton]
    rw [flipOne_self s m]
    ring
  rw [dipUpdE_apply c B (flipOne s m) hcy hcx, dipUpdE_apply c B m hcy hcx]
  by_cases hty : ((y, x) : Site ny nx) = s
  · rw [if_pos hty]
    have hvt : dipValid c (y, x) := hty ▸ hs
    rw [if_pos hvt, if_pos hvt, hsum (y, x) hvt]
    have h1 : dipSliceOf c B (y, x) s = 0 := by rw [hty]; exact hBss
    have h2 : dipSliceOf c A s (y, x) = 0 := by rw [hty]; exact hA0
    have h3 : flipOne s m y x = -(m y x) := by
      unfold flipOne
      rw [if_pos hty]
    rw [h1, h2, h3]
    ring
  · rw [if_neg hty]
    by_cases hvt : dipValid c (y, x)
    · rw [if_pos hvt, if_pos hvt, hsum (y, x) hvt]
      rw [hsym (y, x) hvt]
      have h3 : flipOne s m y x = m y x := flipOne_other s (y, x) m hty
      have h4 : mmoment c (flipOne s m) y x = m y x * c.moment y x := by
        simp only [mmoment]; rw [h3]
      have h5 : mmoment c (flipOne s m) s.1 s.2 = -(m s.1 s.2) * c.moment s.1 s.2 := by
        simp only [mmoment]; rw [flipOne_self s m]
      rw [h3, h4, h5]
      ring
    · rw [if_neg hvt, if_neg hvt, hvanA (y, x) hvt]
      ring

end FlipLemmas

section Grouping

variable [CommRing α]

theorem dipGroup_mem {c : DipCtx α ny nx} {S : List (Site ny nx)} {oy ox : ℕ}
    {s : Site ny nx} (hs : s ∈ dipGroup c S oy ox) :
    s ∈ S ∧ (s.1 : ℕ) % c.cy = oy ∧ (s.2 : ℕ) % c.cx = ox := by
  have h := List.mem_filter.mp hs
  exact ⟨h.1, of_decide_eq_true h.2⟩

theorem dipGroup_idx {c : DipCtx α ny nx} {S : List (Site ny nx)} {oy ox : ℕ}
    {s : Site ny nx} (hs : s ∈ dipGroup c S oy ox) :
    dipIdx c s = c.kernel_unitcell_indices oy ox := by
  obtain ⟨-, h1, h2⟩ := dipGroup_mem hs
  unfold dipIdx
  rw [h1, h2]

theorem sum_offsets_indicator (cy cx a b : ℕ) (v : α) (ha : a < cy)
    (hb : b < cx) :
    (∑ oy ∈ Finset.range cy, ∑ ox ∈ Finset.range cx,
      if a = oy ∧ b = ox then v else 0) = v := by
  have outer0 : ∀ oy ∈ Finset.range cy, oy ≠ a →
      (∑ ox ∈ Finset.range cx, if a = oy ∧ b = ox then v else 0) = 0 := by
    intro oy _ hne
    exact Finset.sum_eq_zero fun ox _ => by rw [if_neg fun hc => hne hc.1.symm]
  rw [Finset.sum_eq_single_of_mem a (Finset.mem_range.mpr ha) outer0]
  have inner0 : ∀ ox ∈ Finset.range cx, ox ≠ b →
      (if a = a ∧ b = ox then v else 0) = 0 := by
    intro ox _ hne
    rw [if_neg fun hc => hne hc.2.symm]
  rw [Finset.sum_eq_single_of_mem b (Finset.mem_range.mpr hb) inner0,
    if_pos ⟨rfl, rfl⟩]

theorem sum_dipGroup (c : DipCtx α ny nx) (f : Site ny nx → α)
    (hcy : 0 < c.cy) (hcx : 0 < c.cx) (S : List (Site ny nx)) :
    (∑ oy ∈ Finset.range c.cy, ∑ ox ∈ Finset.range c.cx,
      ((dipGroup c S oy ox).map f).sum) = (S.map f).sum := by
  induction S with
  | nil => simp [dipGroup]
  | cons s rest ih =>
    have hg : ∀ oy ox, ((dipGroup c (s :: rest) oy ox).map f).sum =
        (if (s.1 : ℕ) % c.cy = oy ∧ (s.2 : ℕ) % c.cx = ox then f s else 0) +
          ((dipGroup c rest oy ox).map f).sum := by
      intro oy ox
      unfold dipGroup
      rw [List.filter_cons]
      by_cases hc : (s.1 : ℕ) % c.cy = oy ∧ (s.2 : ℕ) % c.cx = ox
      · simp [hc]
      · simp [hc]
    rw [Finset.sum_congr rfl fun oy _ => Finset.sum_congr rfl fun ox _ => hg oy ox]
    rw [Finset.sum_congr rfl fun oy _ => Finset.sum_add_distrib,
      Finset.sum_add_distrib, ih,
      sum_offsets_indicator c.cy c.cx _ _ (f s) (Nat.mod_lt _ hcy) (Nat.mod_lt _ hcx)]
    simp

/-- Under the cutoff, every unit-cell group of `update_multiple` takes the
direct-sum strategy, and its accumulator is the superposition of the
members' sliced kernels (with the guard that empty cells contribute
nothing). -/
theorem dipConvolvedKernel_direct [NeZero ny] [NeZero nx] (c : DipCtx α ny nx)
    (K : ℤ → Ker α) (S : List (Site ny nx)) (m : Grid α ny nx) (oy ox : ℕ)
    (hdir : (dipGroup c S oy ox).length ≤ c.cutoff) (y : Fin ny) (x : Fin nx) :
    dipConvolvedKernel c K S m oy ox y x =
      ((dipGroup c S oy ox).map (fun s =>
        if dipValid c s then
          (m s.1 s.2 * c.moment s.1 s.2) * dipSliceOf c K s (y, x)
        else 0)).sum := by
  unfold dipConvolvedKernel
  by_cases h0 : (dipGroup c S oy ox).length = 0 ∨ c.kernel_unitcell_indices oy ox < 0
  · rw [if_pos h0]
    rcases h0 with h0 | h0
    · rw [List.length_eq_zero.mp h0]
      simp
    · symm
      apply List.sum_eq_zero
      intro z hz
      rw [List.mem_map] at hz
      obtain ⟨s, hs, rfl⟩ := hz
      have hidx : dipIdx c s = c.kernel_unitcell_indices oy ox := dipGroup_idx hs
      rw [if_neg (by unfold dipValid; omega)]
  · rw [if_neg h0]
    push_neg at h0
    obtain ⟨-, hidx⟩ := h0
    rw [if_neg (by omega : ¬(dipGroup c S oy ox).length > c.cutoff)]
    refine congrArg List.sum (List.map_congr_left fun s hs => ?_)
    have hsidx : dipIdx c s = c.kernel_unitcell_indices oy ox := dipGroup_idx hs
    rw [if_pos (by unfold dipValid; omega)]
    unfold dipSliceOf
    rw [hsidx]

/-- A batch step on the direct-sum side of the cutoff produces the batch
normal form. -/
theorem dipStep_multiple_direct [NeZero ny] [NeZero nx] (c : DipCtx α ny nx)
    (st : EState α ny nx) (S : List (Site ny nx)) (hcy : 0 < c.cy)
    (hcx : 0 < c.cx)
    (hdir : ∀ oy ox : ℕ, (dipGroup c S oy ox).length ≤ c.cutoff) :
    dipStep c st (SwitchOp.multiple S) = dipBatchResult c S st := by
  show dipUpdateMultiple c S { st with m := flipMany S st.m } = _
  have hsum : ∀ (K : ℤ → Ker α) (y : Fin ny) (x : Fin nx),
      (∑ oy ∈ Finset.range c.cy, ∑ ox ∈ Finset.range c.cx,
        2 * (c.prefactor * (mmoment c (flipMany S st.m) y x *
          dipConvolvedKernel c K S (flipMany S st.m) oy ox y x))) =
      2 * (c.prefactor * (mmoment c (flipMany S st.m) y x *
        (S.map (fun s =>
          if dipValid c s then
            mmoment c (flipMany S st.m) s.1 s.2 * dipSliceOf c K s (y, x)
          else 0)).sum)) := by
    intro K y x
    rw [Finset.sum_congr rfl fun oy _ => Finset.sum_congr rfl fun ox _ => by
      rw [dipConvolvedKernel_direct c K S _ oy ox (hdir oy ox) y x]]
    rw [Finset.sum_congr rfl fun oy _ => Finset.sum_congr rfl fun ox _ =>
      (by ring :
        2 * (c.prefactor * (mmoment c (flipMany S st.m) y x *
          ((dipGroup c S oy ox).map (fun s =>
            if dipValid c s then
              (flipMany S st.m s.1 s.2 * c.moment s.1 s.2) * dipSliceOf c K s (y, x)
            else 0)).sum)) =
        (2 * c.prefactor * mmoment c (flipMany S st.m) y x) *
          ((dipGroup c S oy ox).map (fun s =>
            if dipValid c s then
              (flipMany S st.m s.1 s.2 * c.moment s.1 s.2) * dipSliceOf c K s (y, x)
            else 0)).sum)]
    rw [Finset.sum_congr rfl fun oy _ => (Finset.mul_sum _ _ _).symm]
    rw [← Finset.mul_sum, sum_dipGroup c _ hcy hcx S]
    show (2 * c.prefactor * mmoment c (flipMany S st.m) y x) *
        (S.map (fun s =>
          if dipValid c s then
            mmoment c (flipMany S st.m) s.1 s.2 * dipSliceOf c K s (y, x)
          else 0)).sum = _
    ring
  unfold dipUpdateMultiple dipBatchResult
  dsimp only
  congr 1
  · funext y x
    rw [hsum c.kernel_unitcell y x]
    rfl
  · by_cases hup : c.use_perp
    · rw [if_pos hup, if_pos hup]
      funext y x
      rw [hsum c.kernel_perpother_unitcell y x]
      rfl
    · rw [if_neg hup, if_neg hup]

end Grouping

section BatchExact

variable [CommRing α]

/-- The batch incremental update in its normal form is exact: negating the
switched sites and adding twice the superposed interactions of the switched
magnets (with the flips already applied) reproduces the full recompute on
the new configuration.  No centre condition is needed here: the batch
negates the switched entries before adding, which makes the self terms come
out right for any kernel diagonal. -/
theorem dipUpdE_flip_many (c : DipCtx α ny nx) (A B : ℤ → Ker α)
    (m : Grid α ny nx) (S : List (Site ny nx)) (hcy : 0 < c.cy)
    (hcx : 0 < c.cx) (hnd : S.Nodup)
    (hsym : ∀ s ∈ S, ∀ t : Site ny nx, dipValid c s → dipValid c t →
      dipSliceOf c A s t = dipSliceOf c B t s)
    (hvanA : ∀ s ∈ S, ∀ t : Site ny nx, dipValid c s → ¬dipValid c t →
      dipSliceOf c A s t = 0)
    (hvanB : ∀ s ∈ S, ∀ t : Site ny nx, ¬dipValid c s → dipValid c t →
      dipSliceOf c B t s = 0)
    (y : Fin ny) (x : Fin nx) :
    dipUpdE c B (flipMany S m) y x =
      negAt S (dipUpdE c B m) y x +
        2 * (c.prefactor * (mmoment c (flipMany S m) y x *
          (S.map (fun s =>
            if dipValid c s then
              mmoment c (flipMany S m) s.1 s.2 * dipSliceOf c A s (y, x)
            else 0)).sum)) := by
  by_cases hvt : dipValid c (y, x)
  · have hsum : (∑ u : Fin ny, ∑ v : Fin nx,
        dipSliceOf c B (y, x) (u, v) * (flipMany S m u v * c.moment u v)) =
        (∑ u : Fin ny, ∑ v : Fin nx,
          dipSliceOf c B (y, x) (u, v) * (m u v * c.moment u v)) +
          (S.map (fun s =>
            dipSliceOf c B (y, x) (s.1, s.2) * (flipMany S m s.1 s.2 * c.moment s.1 s.2) -
              dipSliceOf c B (y, x) (s.1, s.2) * (m s.1 s.2 * c.moment s.1 s.2))).sum :=
      sum2_sub_many _ _ S hnd
        (fun u v huv => by rw [flipMany_not_mem_ab S m huv])
    have hD : (S.map (fun s =>
        dipSliceOf c B (y, x) (s.1, s.2) * (flipMany S m s.1 s.2 * c.moment s.1 s.2) -
          dipSliceOf c B (y, x) (s.1, s.2) * (m s.1 s.2 * c.moment s.1 s.2))).sum =
        (S.map (fun s => 2 * (if dipValid c s then
          mmoment c (flipMany S m) s.1 s.2 * dipSliceOf c A s (y, x)
        else 0))).sum := by
      refine congrArg List.sum (List.map_congr_left fun s hs => ?_)
      by_cases hvs : dipValid c s
      · rw [if_pos hvs, hsym s hs (y, x) hvs hvt]
        show dipSliceOf c B (y, x) (s.1, s.2) * (flipMany S m s.1 s.2 * c.moment s.1 s.2) -
            dipSliceOf c B (y, x) (s.1, s.2) * (m s.1 s.2 * c.moment s.1 s.2) =
          2 * (mmoment c (flipMany S m) s.1 s.2 * dipSliceOf c B (y, x) (s.1, s.2))
        show dipSliceOf c B (y, x) (s.1, s.2) * (flipMany S m s.1 s.2 * c.moment s.1 s.2) -
            dipSliceOf c B (y, x) (s.1, s.2) * (m s.1 s.2 * c.moment s.1 s.2) =
          2 * (flipMany S m s.1 s.2 * c.moment s.1 s.2 * dipSliceOf c B (y, x) (s.1, s.2))
        rw [flipMany_mem S m hs]
        ring
      · rw [if_neg hvs, hvanB s hs (y, x) hvs hvt]
        show (0 : α) * _ - 0 * _ = 2 * 0
        ring
    rw [dipUpdE_apply c B (flipMany S m) hcy hcx, if_pos hvt]
    unfold negAt
    have hmmF : mmoment c (flipMany S m) y x = flipMany S m y x * c.moment y x := rfl
    by_cases hmem : ((y, x) : Site ny nx) ∈ S
    · have hflip : flipMany S m y x = -(m y x) := flipMany_mem_ab S m hmem
      rw [if_pos hmem, dipUpdE_apply c B m hcy hcx, if_pos hvt, hsum, hD,
        List.sum_map_mul_left S
          (fun s => if dipValid c s then
            mmoment c (flipMany S m) s.1 s.2 * dipSliceOf c A s (y, x) else 0) 2,
        hmmF, hflip]
      ring
    · have hflip : flipMany S m y x = m y x := flipMany_not_mem_ab S m hmem
      rw [if_neg hmem, dipUpdE_apply c B m hcy hcx, if_pos hvt, hsum, hD,
        List.sum_map_mul_left S
          (fun s => if dipValid c s then
            mmoment c (flipMany S m) s.1 s.2 * dipSliceOf c A s (y, x) else 0) 2,
        hmmF, hflip]
      ring
  · have hzero : dipUpdE c B m y x = 0 := dipUpdE_invalid c B m hcy hcx y x hvt
    have hzero' : dipUpdE c B (flipMany S m) y x = 0 :=
      dipUpdE_invalid c B (flipMany S m) hcy hcx y x hvt
    have hmap : (S.map (fun s =>
        if dipValid c s then
          mmoment c (flipMany S m) s.1 s.2 * dipSliceOf c A s (y, x)
        else 0)).sum = 0 := by
      apply List.sum_eq_zero
      intro z hz
      rw [List.mem_map] at hz
      obtain ⟨s, hs, rfl⟩ := hz
      by_cases hvs : dipValid c s
      · rw [if_pos hvs, hvanA s hs (y, x) hvs hvt, mul_zero]
      · rw [if_neg hvs]
    rw [hzero', hmap]
    unfold negAt
    rw [hzero]
    by_cases hmem : ((y, x) : Site ny nx) ∈ S
    · rw [if_pos hmem]
      ring
    · rw [if_neg hmem]
      ring

end BatchExact

section Preservation

variable [CommRing α]

theorem kslice_def (c : DipCtx α ny nx) (s t : Site ny nx) :
    kslice c s t = dipSliceOf c c.kernel_unitcell s t := rfl

theorem kpsSlice_def (c : DipCtx α ny nx) (s t : Site ny nx) :
    kpsSlice c s t = dipSliceOf c c.kernel_perpself_unitcell s t := rfl

theorem kpoSlice_def (c : DipCtx α ny nx) (s t : Site ny nx) :
    kpoSlice c s t = dipSliceOf c c.kernel_perpother_unitcell s t := rfl

/-- Build the dipolar no-drift invariant from its two components. -/
theorem dipConsistent_mk (c : DipCtx α ny nx) (m E P : Grid α ny nx)
    (hE : E = dipUpdE c c.kernel_unitcell m)
    (hP : c.use_perp = true → P = dipUpdE c c.kernel_perpself_unitcell m) :
    dipConsistent c ⟨m, E, P⟩ :=
  ⟨hE, hP⟩

/-- Build the Zeeman no-drift invariant from its two components. -/
theorem zeemanConsistent_mk (c : ZeemanCtx α ny nx) (m E P : Grid α ny nx)
    (hE : E = fun y x => m y x * c.E_factor y x)
    (hP : c.use_perp = true → P = fun y x => m y x * c.E_factor_perp y x) :
    zeemanConsistent c ⟨m, E, P⟩ := by
  refine ⟨hE, fun hup => ?_⟩
  show P = (if c.use_perp then _ else _)
  rw [if_pos hup]
  exact hP hup

/-- `update_single` on an occupied site, in normal form. -/
theorem dipUpdateSingle_valid (c : DipCtx α ny nx) (s : Site ny nx)
    (st : EState α ny nx) (hneg : ¬dipIdx c s < 0) :
    dipUpdateSingle c s st = { st with
      E := fun y x =>
        if ((y, x) : Site ny nx) = s then
          -(st.E y x + 2 * (c.prefactor * mmoment c st.m s.1 s.2 *
            (mmoment c st.m y x * kslice c s (y, x))))
        else
          st.E y x + 2 * (c.prefactor * mmoment c st.m s.1 s.2 *
            (mmoment c st.m y x * kslice c s (y, x)))
      E_perp := if c.use_perp then
          (fun y x =>
            if ((y, x) : Site ny nx) = s then
              -(st.E_perp y x + 2 * (c.prefactor * mmoment c st.m s.1 s.2 *
                (mmoment c st.m y x * kpoSlice c s (y, x))))
            else
              st.E_perp y x + 2 * (c.prefactor * mmoment c st.m s.1 s.2 *
                (mmoment c st.m y x * kpoSlice c s (y, x))))
        else st.E_perp } := by
  unfold dipUpdateSingle
  rw [if_neg hneg]

/-- Every scheduler step against the dipolar contribution preserves the
no-drift invariant, provided the kernels are structurally good and each
batch stays on the direct-sum side of the cutoff. -/
theorem dipStep_preserves [NeZero ny] [NeZero nx] (c : DipCtx α ny nx)
    (hcy : 0 < c.cy) (hcx : 0 < c.cx) (hgood : dipGood c)
    (st : EState α ny nx) (op : SwitchOp ny nx) (hok : opOK c op)
    (hcons : dipConsistent c st) : dipConsistent c (dipStep c st op) := by
  obtain ⟨hc0, hps0, hpo0, hsym, hcross, hvanK, hvanPO, hvanPS⟩ := hgood
  cases op with
  | recompute =>
    exact dipConsistent_mk c st.m _ _ rfl (fun hup => by rw [if_pos hup])
  | single s =>
    show dipConsistent c (dipUpdateSingle c s { st with m := flipOne s st.m })
    by_cases hval : dipValid c s
    · have hneg : ¬dipIdx c s < 0 := by unfold dipValid at hval; omega
      rw [dipUpdateSingle_valid c s _ hneg]
      refine dipConsistent_mk c (flipOne s st.m) _ _ ?_ ?_
      · funext y x
        rw [dipUpdE_flip_single c c.kernel_unitcell c.kernel_unitcell st.m s hcy hcx
          hval (hc0 s hval) (fun t ht => hsym s t hval ht)
          (fun t ht => hvanK s t hval ht) y x, hcons.1, kslice_def]
      · intro hup
        rw [if_pos hup]
        funext y x
        rw [dipUpdE_flip_single c c.kernel_perpother_unitcell c.kernel_perpself_unitcell
          st.m s hcy hcx hval (hpo0 s hval) (fun t ht => hcross s t hval ht)
          (fun t ht => hvanPO s t hval ht) y x, hcons.2 hup, kpoSlice_def]
    · have hneg : dipIdx c s < 0 := by unfold dipValid at hval; omega
      rw [show dipUpdateSingle c s { st with m := flipOne s st.m } =
        { st with m := flipOne s st.m } from by unfold dipUpdateSingle; rw [if_pos hneg]]
      refine dipConsistent_mk c (flipOne s st.m) _ _ ?_ ?_
      · rw [dipUpdE_flip_invalid c c.kernel_unitcell st.m s hcy hcx hval
          (fun t ht => (kslice_def c t s) ▸ hvanK t s ht hval)]
        exact hcons.1
      · intro hup
        rw [dipUpdE_flip_invalid c c.kernel_perpself_unitcell st.m s hcy hcx hval
          (fun t ht => (kpsSlice_def c t s) ▸ hvanPS t s ht hval)]
        exact hcons.2 hup
  | multiple S =>
    obtain ⟨hnd, hdir⟩ := hok
    rw [dipStep_multiple_direct c st S hcy hcx hdir]
    unfold dipBatchResult
    refine dipConsistent_mk c (flipMany S st.m) _ _ ?_ ?_
    · funext y x
      rw [dipUpdE_flip_many c c.kernel_unitcell c.kernel_unitcell st.m S hcy hcx hnd
        (fun s _ t hs ht => hsym s t hs ht) (fun s _ t hs ht => hvanK s t hs ht)
        (fun s _ t hs ht => hvanK t s ht hs) y x, hcons.1]
      simp only [kslice_def]
    · intro hup
      rw [if_pos hup]
      funext y x
      rw [dipUpdE_flip_many c c.kernel_perpother_unitcell c.kernel_perpself_unitcell
        st.m S hcy hcx hnd (fun s _ t hs ht => hcross s t hs ht)
        (fun s _ t hs ht => hvanPO s t hs ht)
        (fun s _ t hs ht => hvanPS t s ht hs) y x, hcons.2 hup]
      simp only [kpoSlice_def]

theorem dipRun_preserves [NeZero ny] [NeZero nx] (c : DipCtx α ny nx)
    (hcy : 0 < c.cy) (hcx : 0 < c.cx) (hgood : dipGood c)
    (ops : List (SwitchOp ny nx)) (st : EState α ny nx) (hok : runOK c ops)
    (hcons : dipConsistent c st) : dipConsistent c (dipRun c st ops) := by
  induction ops generalizing st with
  | nil => exact hcons
  | cons op rest ih =>
    exact ih _ (fun o ho => hok o (List.mem_cons_of_mem _ ho))
      (dipStep_preserves c hcy hcx hgood st op (hok op (List.mem_cons_self _ _)) hcons)

theorem zeemanStep_preserves (c : ZeemanCtx α ny nx) (st : EState α ny nx)
    (op : SwitchOp ny nx) (hcons : zeemanConsistent c st) :
    zeemanConsistent c (zeemanStep c st op) := by
  have hE' : ∀ y x, st.E y x = st.m y x * c.E_factor y x := fun y x =>
    congrFun (congrFun hcons.1 y) x
  have hP' : c.use_perp = true →
      ∀ y x, st.E_perp y x = st.m y x * c.E_factor_perp y x := by
    intro hup y x
    rw [hcons.2 hup]
    show (if c.use_perp then
      (fun y' x' => st.m y' x' * c.E_factor_perp y' x') else st.E_perp) y x = _
    rw [if_pos hup]
  cases op with
  | recompute =>
    exact zeemanConsistent_mk c st.m _ _ rfl (fun hup => by rw [if_pos hup])
  | single s =>
    refine zeemanConsistent_mk c (flipOne s st.m) _ _ ?_ ?_
    · funext y x
      show (if ((y, x) : Site ny nx) = s then -st.E y x else st.E y x) =
        flipOne s st.m y x * c.E_factor y x
      unfold flipOne
      by_cases h : ((y, x) : Site ny nx) = s
      · rw [if_pos h, if_pos h, hE' y x]; ring
      · rw [if_neg h, if_neg h, hE' y x]
    · intro hup
      rw [if_pos hup]
      funext y x
      show (if ((y, x) : Site ny nx) = s then -st.E_perp y x else st.E_perp y x) =
        flipOne s st.m y x * c.E_factor_perp y x
      unfold flipOne
      by_cases h : ((y, x) : Site ny nx) = s
      · rw [if_pos h, if_pos h, hP' hup y x]; ring
      · rw [if_neg h, if_neg h, hP' hup y x]
  | multiple S =>
    refine zeemanConsistent_mk c (flipMany S st.m) _ _ ?_ ?_
    · funext y x
      show negAt S st.E y x = flipMany S st.m y x * c.E_factor y x
      unfold negAt flipMany
      by_cases h : ((y, x) : Site ny nx) ∈ S
      · rw [if_pos h, if_pos h, hE' y x]; ring
      · rw [if_neg h, if_neg h, hE' y x]
    · intro hup
      rw [if_pos hup]
      funext y x
      show negAt S st.E_perp y x = flipMany S st.m y x * c.E_factor_perp y x
      unfold negAt flipMany
      by_cases h : ((y, x) : Site ny nx) ∈ S
      · rw [if_pos h, if_pos h, hP' hup y x]; ring
      · rw [if_neg h, if_neg h, hP' hup y x]

theorem zeemanRun_preserves (c : ZeemanCtx α ny nx) (ops : List (SwitchOp ny nx))
    (st : EState α ny nx) (hcons : zeemanConsistent c st) :
    zeemanConsistent c (zeemanRun c st ops) := by
  induction ops generalizing st with
  | nil => exact hcons
  | cons op rest ih => exact ih _ (zeemanStep_preserves c st op hcons)

theorem exchUpdate_consistent [NeZero ny] [NeZero nx] (c : ExchCtx α ny nx)
    (st : EState α ny nx) : exchConsistent c (exchUpdate c st) := by
  refine ⟨rfl, fun hup => ?_⟩
  show (if c.use_perp then _ else _) = (if c.use_perp then _ else _)
  rw [if_pos hup, if_pos hup]
  rfl

theorem exchStep_preserves [NeZero ny] [NeZero nx] (c : ExchCtx α ny nx)
    (st : EState α ny nx) (op : SwitchOp ny nx) (hcons : exchConsistent c st) :
    exchConsistent c (exchStep c st op) := by
  cases op with
  | single s => exact exchUpdate_consistent c _
  | multiple S => exact exchUpdate_consistent c _
  | recompute => exact exchUpdate_consistent c _

theorem exchRun_preserves [NeZero ny] [NeZero nx] (c : ExchCtx α ny nx)
    (ops : List (SwitchOp ny nx)) (st : EState α ny nx)
    (hcons : exchConsistent c st) : exchConsistent c (exchRun c st ops) := by
  induction ops generalizing st with
  | nil => exact hcons
  | cons op rest ih => exact ih _ (exchStep_preserves c st op hcons)

end Preservation

section ClaimC1

variable [CommRing α] [NeZero ny] [NeZero nx]

/-- C1 (amended): for every contribution type and every sequence of single
or batch switches — each flip applied to the spin configuration before the
corresponding update call, and, as the counterexample `claim_C1_cex`
forces, each batch's unit-cell groups staying on the direct-sum side of the
convolution cutoff — the `E` grid (and the `E_perp` grid when enabled)
maintained by the sequence of `update_single`/`update_multiple`/`update`
calls equals the grid obtained by a single full recompute on the final spin
configuration.  Exact equality over a commutative ring replaces "within
floating tolerance".  The dipolar kernels are assumed structurally good
(`dipGood`): centre entries zero, pair-symmetric, vanishing on unoccupied
cells — properties the kernel construction provides (claim C8 for the
centres). -/
theorem claim_C1_incremental_full_equivalence
    (cz : ZeemanCtx α ny nx) (stz : EState α ny nx) (opsz : List (SwitchOp ny nx))
    (hz : zeemanConsistent cz stz)
    (cd : DipCtx α ny nx) (std : EState α ny nx) (opsd : List (SwitchOp ny nx))
    (hcy : 0 < cd.cy) (hcx : 0 < cd.cx) (hgood : dipGood cd)
    (hok : runOK cd opsd) (hd : dipConsistent cd std)
    (ce : ExchCtx α ny nx) (ste : EState α ny nx) (opse : List (SwitchOp ny nx))
    (he : exchConsistent ce ste) :
    zeemanConsistent cz (zeemanRun cz stz opsz) ∧
    dipConsistent cd (dipRun cd std opsd) ∧
    exchConsistent ce (exchRun ce ste opse) :=
  ⟨zeemanRun_preserves cz opsz stz hz,
   dipRun_preserves cd hcy hcx hgood opsd std hok hd,
   exchRun_preserves ce opse ste he⟩

end ClaimC1

section ClaimC1Witness

/-- Witness for C1 (amended) at concrete inputs: the 1×2 integer lattice,
a batch switch on the direct-sum side of the cutoff followed by a single
switch for the dipolar contribution, and single/batch switches for the
Zeeman and exchange contributions. -/
theorem claim_C1_witness :
    zeemanConsistent czW
      (zeemanRun czW stzW [SwitchOp.single cexSite, SwitchOp.multiple [cexSite]]) ∧
    dipConsistent cexCtxDirect
      (dipRun cexCtxDirect cexSt [SwitchOp.multiple [cexSite], SwitchOp.single cexSite]) ∧
    exchConsistent ceW (exchRun ceW steW [SwitchOp.single cexSite]) := by
  refine claim_C1_incremental_full_equivalence
    czW stzW _ ⟨rfl, fun h => absurd h (by decide)⟩
    cexCtxDirect cexSt _ (by decide) (by decide)
    (by refine ⟨?_, ?_, ?_, ?_, ?_, ?_, ?_, ?_⟩ <;> decide)
    ?_ ⟨by decide, fun h => absurd h (by decide)⟩
    ceW steW _ ⟨rfl, fun h => absurd h (by decide)⟩
  intro op hop
  rcases List.mem_cons.mp hop with h | h
  · subst h
    refine ⟨List.nodup_singleton _, fun oy ox => ?_⟩
    exact le_trans (List.length_filter_le _ _) (by decide)
  · rcases List.mem_cons.mp h with h2 | h2
    · subst h2
      trivial
    · cases h2

end ClaimC1Witness

section ClaimC3

variable [CommRing α] [NeZero ny] [NeZero nx]

theorem EState.ext' (a b : EState α ny nx) (h1 : a.m = b.m) (h2 : a.E = b.E)
    (h3 : a.E_perp = b.E_perp) : a = b := by
  cases a
  cases b
  cases h1
  cases h2
  cases h3
  rfl

theorem flipMany_cons (s : Site ny nx) (rest : List (Site ny nx))
    (m : Grid α ny nx) (hs : s ∉ rest) :
    flipMany rest (flipOne s m) = flipMany (s :: rest) m := by
  funext y x
  unfold flipMany flipOne
  by_cases h1 : ((y, x) : Site ny nx) ∈ rest
  · have hne : ¬((y, x) : Site ny nx) = s := fun he => hs (he ▸ h1)
    rw [if_pos h1, if_pos (List.mem_cons_of_mem s h1), if_neg hne]
  · rw [if_neg h1]
    by_cases h2 : ((y, x) : Site ny nx) = s
    · rw [if_pos h2, if_pos (by rw [h2]; exact List.mem_cons_self s rest)]
    · rw [if_neg h2, if_neg (by simp [h2, h1])]

/-- Sequentially applying `update_single` for each site of `S` (each flip
applied right before its call) lands on the batch normal form, provided the
sites are distinct, all occupied, and the kernels have zero centres. -/
theorem dipRun_singles (c : DipCtx α ny nx) (st : EState α ny nx)
    (S : List (Site ny nx)) (hnd : S.Nodup) (hval : ∀ s ∈ S, dipValid c s)
    (h0 : ∀ s ∈ S, kslice c s s = 0) (hp0 : ∀ s ∈ S, kpoSlice c s s = 0) :
    dipRun c st (S.map SwitchOp.single) = dipBatchResult c S st := by
  induction S generalizing st with
  | nil =>
    show st = dipBatchResult c [] st
    unfold dipBatchResult
    dsimp only
    refine EState.ext' _ _ ?_ ?_ ?_
    · funext y x
      show st.m y x =
        (if ((y, x) : Site ny nx) ∈ ([] : List (Site ny nx)) then -(st.m y x) else st.m y x)
      rw [if_neg (List.not_mem_nil _)]
    · funext y x
      symm
      show negAt ([] : List (Site ny nx)) st.E y x +
        2 * (c.prefactor * (mmoment c (flipMany [] st.m) y x *
          (([] : List (Site ny nx)).map (fun t => if dipValid c t then
            mmoment c (flipMany [] st.m) t.1 t.2 * kslice c t (y, x) else 0)).sum)) =
        st.E y x
      unfold negAt
      rw [if_neg (List.not_mem_nil _), List.map_nil, List.sum_nil]
      ring
    · show st.E_perp = (if c.use_perp then _ else st.E_perp)
      by_cases hup : c.use_perp
      · rw [if_pos hup]
        funext y x
        symm
        show negAt ([] : List (Site ny nx)) st.E_perp y x +
          2 * (c.prefactor * (mmoment c (flipMany [] st.m) y x *
            (([] : List (Site ny nx)).map (fun t => if dipValid c t then
              mmoment c (flipMany [] st.m) t.1 t.2 * kpoSlice c t (y, x) else 0)).sum)) =
          st.E_perp y x
        unfold negAt
        rw [if_neg (List.not_mem_nil _), List.map_nil, List.sum_nil]
        ring
      · rw [if_neg hup]
  | cons s rest ih =>
    have hs_val : dipValid c s := hval s (List.mem_cons_self s rest)
    have hs_not : s ∉ rest := (List.nodup_cons.mp hnd).1
    have hnd' : rest.Nodup := (List.nodup_cons.mp hnd).2
    have hneg : ¬dipIdx c s < 0 := by unfold dipValid at hs_val; omega
    show dipRun c (dipStep c st (SwitchOp.single s)) (rest.map SwitchOp.single) = _
    rw [ih _ hnd' (fun t ht => hval t (List.mem_cons_of_mem s ht))
      (fun t ht => h0 t (List.mem_cons_of_mem s ht))
      (fun t ht => hp0 t (List.mem_cons_of_mem s ht))]
    show dipBatchResult c rest (dipUpdateSingle c s { st with m := flipOne s st.m }) = _
    rw [dipUpdateSingle_valid c s _ hneg]
    unfold dipBatchResult
    dsimp only
    have hm : flipMany rest (flipOne s st.m) = flipMany (s :: rest) st.m :=
      flipMany_cons s rest st.m hs_not
    have hmm1s : mmoment c (flipOne s st.m) s.1 s.2 =
        -(st.m s.1 s.2) * c.moment s.1 s.2 := by
      simp only [mmoment]
      rw [flipOne_self s st.m]
    have hmmFs : mmoment c (flipMany (s :: rest) st.m) s.1 s.2 =
        -(st.m s.1 s.2) * c.moment s.1 s.2 := by
      simp only [mmoment]
      rw [flipMany_mem (s :: rest) st.m (List.mem_cons_self s rest)]
    refine EState.ext' _ _ ?_ ?_ ?_
    · exact hm
    · funext y x
      show negAt rest (fun y' x' =>
          if ((y', x') : Site ny nx) = s then
            -(st.E y' x' + 2 * (c.prefactor * mmoment c (flipOne s st.m) s.1 s.2 *
              (mmoment c (flipOne s st.m) y' x' * kslice c s (y', x'))))
          else st.E y' x' + 2 * (c.prefactor * mmoment c (flipOne s st.m) s.1 s.2 *
              (mmoment c (flipOne s st.m) y' x' * kslice c s (y', x')))) y x +
        2 * (c.prefactor * (mmoment c (flipMany rest (flipOne s st.m)) y x *
          (rest.map (fun t => if dipValid c t then
            mmoment c (flipMany rest (flipOne s st.m)) t.1 t.2 * kslice c t (y, x)
          else 0)).sum)) =
        negAt (s :: rest) st.E y x +
        2 * (c.prefactor * (mmoment c (flipMany (s :: rest) st.m) y x *
          ((s :: rest).map (fun t => if dipValid c t then
            mmoment c (flipMany (s :: rest) st.m) t.1 t.2 * kslice c t (y, x)
          else 0)).sum))
      rw [hm, List.map_cons, List.sum_cons, if_pos hs_val]
      unfold negAt
      dsimp only
      by_cases hys : ((y, x) : Site ny nx) = s
      · have hyr : ((y, x) : Site ny nx) ∉ rest := fun hmem => hs_not (hys ▸ hmem)
        have hks : kslice c s (y, x) = 0 := by
          rw [hys]; exact h0 s (List.mem_cons_self s rest)
        have hmm1yx : mmoment c (flipOne s st.m) y x = -(st.m y x) * c.moment y x := by
          simp only [mmoment]
          unfold flipOne
          rw [if_pos hys]
        have hmmFyx : mmoment c (flipMany (s :: rest) st.m) y x =
            -(st.m y x) * c.moment y x := by
          simp only [mmoment]
          unfold flipMany
          rw [if_pos (by rw [hys]; exact List.mem_cons_self s rest)]
        rw [if_neg hyr, if_pos hys, if_pos (by rw [hys]; exact List.mem_cons_self s rest),
          hks, hmm1s, hmmFs, hmm1yx, hmmFyx]
        ring
      · by_cases hyr : ((y, x) : Site ny nx) ∈ rest
        · have hmm1yx : mmoment c (flipOne s st.m) y x = st.m y x * c.moment y x := by
            simp only [mmoment]
            unfold flipOne
            rw [if_neg hys]
          have hmmFyx : mmoment c (flipMany (s :: rest) st.m) y x =
              -(st.m y x) * c.moment y x := by
            simp only [mmoment]
            unfold flipMany
            rw [if_pos (List.mem_cons_of_mem s hyr)]
          rw [if_pos hyr, if_neg hys, if_pos (List.mem_cons_of_mem s hyr),
            hmm1s, hmmFs, hmm1yx, hmmFyx]
          ring
        · have hmm1yx : mmoment c (flipOne s st.m) y x = st.m y x * c.moment y x := by
            simp only [mmoment]
            unfold flipOne
            rw [if_neg hys]
          have hmmFyx : mmoment c (flipMany (s :: rest) st.m) y x =
              st.m y x * c.moment y x := by
            simp only [mmoment]
            unfold flipMany
            rw [if_neg (by simp [hys, hyr])]
          rw [if_neg hyr, if_neg hys, if_neg (by simp [hys, hyr]),
            hmm1s, hmmFs, hmm1yx, hmmFyx]
          ring
    · by_cases hup : c.use_perp
      · rw [if_pos hup, if_pos hup, if_pos hup]
        funext y x
        show negAt rest (fun y' x' =>
            if ((y', x') : Site ny nx) = s then
              -(st.E_perp y' x' + 2 * (c.prefactor * mmoment c (flipOne s st.m) s.1 s.2 *
                (mmoment c (flipOne s st.m) y' x' * kpoSlice c s (y', x'))))
            else st.E_perp y' x' + 2 * (c.prefactor * mmoment c (flipOne s st.m) s.1 s.2 *
                (mmoment c (flipOne s st.m) y' x' * kpoSlice c s (y', x')))) y x +
          2 * (c.prefactor * (mmoment c (flipMany rest (flipOne s st.m)) y x *
            (rest.map (fun t => if dipValid c t then
              mmoment c (flipMany rest (flipOne s st.m)) t.1 t.2 * kpoSlice c t (y, x)
            else 0)).sum)) =
          negAt (s :: rest) st.E_perp y x +
          2 * (c.prefactor * (mmoment c (flipMany (s :: rest) st.m) y x *
            ((s :: rest).map (fun t => if dipValid c t then
              mmoment c (flipMany (s :: rest) st.m) t.1 t.2 * kpoSlice c t (y, x)
            else 0)).sum))
        rw [hm, List.map_cons, List.sum_cons, if_pos hs_val]
        unfold negAt
        dsimp only
        by_cases hys : ((y, x) : Site ny nx) = s
        · have hyr : ((y, x) : Site ny nx) ∉ rest := fun hmem => hs_not (hys ▸ hmem)
          have hks : kpoSlice c s (y, x) = 0 := by
            rw [hys]; exact hp0 s (List.mem_cons_self s rest)
          have hmm1yx : mmoment c (flipOne s st.m) y x = -(st.m y x) * c.moment y x := by
            simp only [mmoment]
            unfold flipOne
            rw [if_pos hys]
          have hmmFyx : mmoment c (flipMany (s :: rest) st.m) y x =
              -(st.m y x) * c.moment y x := by
            simp only [mmoment]
            unfold flipMany
            rw [if_pos (by rw [hys]; exact List.mem_cons_self s rest)]
          rw [if_neg hyr, if_pos hys, if_pos (by rw [hys]; exact List.mem_cons_self s rest),
            hks, hmm1s, hmmFs, hmm1yx, hmmFyx]
          ring
        · by_cases hyr : ((y, x) : Site ny nx) ∈ rest
          · have hmm1yx : mmoment c (flipOne s st.m) y x = st.m y x * c.moment y x := by
              simp only [mmoment]
              unfold flipOne
              rw [if_neg hys]
            have hmmFyx : mmoment c (flipMany (s :: rest) st.m) y x =
                -(st.m y x) * c.moment y x := by
              simp only [mmoment]
              unfold flipMany
              rw [if_pos (List.mem_cons_of_mem s hyr)]
            rw [if_pos hyr, if_neg hys, if_pos (List.mem_cons_of_mem s hyr),
              hmm1s, hmmFs, hmm1yx, hmmFyx]
            ring
          · have hmm1yx : mmoment c (flipOne s st.m) y x = st.m y x * c.moment y x := by
              simp only [mmoment]
              unfold flipOne
              rw [if_neg hys]
            have hmmFyx : mmoment c (flipMany (s :: rest) st.m) y x =
                st.m y x * c.moment y x := by
              simp only [mmoment]
              unfold flipMany
              rw [if_neg (by simp [hys, hyr])]
            rw [if_neg hyr, if_neg hys, if_neg (by simp [hys, hyr]),
              hmm1s, hmmFs, hmm1yx, hmmFyx]
            ring
      · rw [if_neg hup, if_neg hup, if_neg hup]

/-- C3 (amended): when every unit-cell group of the batch stays on the
direct-sum side of the cutoff — as the counterexample `claim_C3_cex`
forces — `update_multiple(S)` (all flips applied before the call) leaves
`m`, `E` and `E_perp` exactly identical to the sequential application of
`update_single` for each site of `S` (each flip applied right before its
call), for any set of distinct occupied sites, overlapping influence or
not.  The kernels' centre entries are zero (as constructed: claim C8). -/
theorem claim_C3_batch_eq_sequential (c : DipCtx α ny nx) (st : EState α ny nx)
    (S : List (Site ny nx)) (hcy : 0 < c.cy) (hcx : 0 < c.cx)
    (hnd : S.Nodup) (hval : ∀ s ∈ S, dipValid c s)
    (hdir : ∀ oy ox : ℕ, (dipGroup c S oy ox).length ≤ c.cutoff)
    (h0 : ∀ s ∈ S, kslice c s s = 0) (hp0 : ∀ s ∈ S, kpoSlice c s s = 0) :
    dipStep c st (SwitchOp.multiple S) = dipRun c st (S.map SwitchOp.single) := by
  rw [dipStep_multiple_direct c st S hcy hcx hdir,
    dipRun_singles c st S hnd hval h0 hp0]

/-- Witness for C3 (amended): a two-site batch on the 1×2 lattice with the
cutoff at 2, against the two sequential single switches. -/
theorem claim_C3_witness :
    dipStep { cexCtxConv with cutoff := 2 } cexSt
        (SwitchOp.multiple [((0 : Fin 1), (0 : Fin 2)), cexSite]) =
      dipRun { cexCtxConv with cutoff := 2 } cexSt
        ([((0 : Fin 1), (0 : Fin 2)), cexSite].map SwitchOp.single) := by
  refine claim_C3_batch_eq_sequential _ cexSt _ (by decide) (by decide)
    (by decide) (by decide) (fun oy ox => ?_) (by decide) (by decide)
  exact le_trans (List.length_filter_le _ _) (by decide)

end ClaimC3

section ClaimC6

variable [CommRing α]

/-- `apply_PBC` on the kernel window, written positionally: the slice
arithmetic of the eight guarded additions is exactly "add every in-window
translate of the entry by `±ny` rows and `±nx` columns". -/
theorem applyPBC_char (ny nx : ℕ) (k : Ker α) (i j : ℤ)
    (hi1 : 0 ≤ i) (hi2 : i ≤ 2 * (ny : ℤ) - 2)
    (hj1 : 0 ≤ j) (hj2 : j ≤ 2 * (nx : ℤ) - 2) :
    applyPBC ny nx k i j =
      k i j
      + winGuard ny nx k i (j - nx)
      + winGuard ny nx k (i - ny) (j - nx)
      + winGuard ny nx k (i - ny) j
      + winGuard ny nx k (i - ny) (j + nx)
      + winGuard ny nx k i (j + nx)
      + winGuard ny nx k (i + ny) (j + nx)
      + winGuard ny nx k (i + ny) j
      + winGuard ny nx k (i + ny) (j - nx) := by
  unfold applyPBC winGuard
  rw [show (if 0 ≤ i ∧ i ≤ 2 * (ny : ℤ) - 2 ∧ (nx : ℤ) ≤ j ∧ j ≤ 2 * (nx : ℤ) - 2 then
        k i (j - (nx : ℤ)) else 0)
      = (if 0 ≤ i ∧ i ≤ 2 * (ny : ℤ) - 2 ∧ 0 ≤ j - (nx : ℤ) ∧ j - (nx : ℤ) ≤ 2 * (nx : ℤ) - 2 then
        k i (j - (nx : ℤ)) else 0) from if_congr (by omega) rfl rfl]
  rw [show (if (ny : ℤ) ≤ i ∧ i ≤ 2 * (ny : ℤ) - 2 ∧ (nx : ℤ) ≤ j ∧ j ≤ 2 * (nx : ℤ) - 2 then
        k (i - (ny : ℤ)) (j - (nx : ℤ)) else 0)
      = (if 0 ≤ i - (ny : ℤ) ∧ i - (ny : ℤ) ≤ 2 * (ny : ℤ) - 2 ∧ 0 ≤ j - (nx : ℤ) ∧ j - (nx : ℤ) ≤ 2 * (nx : ℤ) - 2 then
        k (i - (ny : ℤ)) (j - (nx : ℤ)) else 0) from if_congr (by omega) rfl rfl]
  rw [show (if (ny : ℤ) ≤ i ∧ i ≤ 2 * (ny : ℤ) - 2 ∧ 0 ≤ j ∧ j ≤ 2 * (nx : ℤ) - 2 then
        k (i - (ny : ℤ)) j else 0)
      = (if 0 ≤ i - (ny : ℤ) ∧ i - (ny : ℤ) ≤ 2 * (ny : ℤ) - 2 ∧ 0 ≤ j ∧ j ≤ 2 * (nx : ℤ) - 2 then
        k (i - (ny : ℤ)) j else 0) from if_congr (by omega) rfl rfl]
  rw [show (if (ny : ℤ) ≤ i ∧ i ≤ 2 * (ny : ℤ) - 2 ∧ 0 ≤ j ∧ j ≤ (nx : ℤ) - 2 then
        k (i - (ny : ℤ)) (j + (nx : ℤ)) else 0)
      = (if 0 ≤ i - (ny : ℤ) ∧ i - (ny : ℤ) ≤ 2 * (ny : ℤ) - 2 ∧ 0 ≤ j + (nx : ℤ) ∧ j + (nx : ℤ) ≤ 2 * (nx : ℤ) - 2 then
        k (i - (ny : ℤ)) (j + (nx : ℤ)) else 0) from if_congr (by omega) rfl rfl]
  rw [show (if 0 ≤ i ∧ i ≤ 2 * (ny : ℤ) - 2 ∧ 0 ≤ j ∧ j ≤ (nx : ℤ) - 2 then
        k i (j + (nx : ℤ)) else 0)
      = (if 0 ≤ i ∧ i ≤ 2 * (ny : ℤ) - 2 ∧ 0 ≤ j + (nx : ℤ) ∧ j + (nx : ℤ) ≤ 2 * (nx : ℤ) - 2 then
        k i (j + (nx : ℤ)) else 0) from if_congr (by omega) rfl rfl]
  rw [show (if 0 ≤ i ∧ i ≤ (ny : ℤ) - 2 ∧ 0 ≤ j ∧ j ≤ (nx : ℤ) - 2 then
        k (i + (ny : ℤ)) (j + (nx : ℤ)) else 0)
      = (if 0 ≤ i + (ny : ℤ) ∧ i + (ny : ℤ) ≤ 2 * (ny : ℤ) - 2 ∧ 0 ≤ j + (nx : ℤ) ∧ j + (nx : ℤ) ≤ 2 * (nx : ℤ) - 2 then
        k (i + (ny : ℤ)) (j + (nx : ℤ)) else 0) from if_congr (by omega) rfl rfl]
  rw [show (if 0 ≤ i ∧ i ≤ (ny : ℤ) - 2 ∧ 0 ≤ j ∧ j ≤ 2 * (nx : ℤ) - 2 then
        k (i + (ny : ℤ)) j else 0)
      = (if 0 ≤ i + (ny : ℤ) ∧ i + (ny : ℤ) ≤ 2 * (ny : ℤ) - 2 ∧ 0 ≤ j ∧ j ≤ 2 * (nx : ℤ) - 2 then
        k (i + (ny : ℤ)) j else 0) from if_congr (by omega) rfl rfl]
  rw [show (if 0 ≤ i ∧ i ≤ (ny : ℤ) - 2 ∧ (nx : ℤ) ≤ j ∧ j ≤ 2 * (nx : ℤ) - 2 then
        k (i + (ny : ℤ)) (j - (nx : ℤ)) else 0)
      = (if 0 ≤ i + (ny : ℤ) ∧ i + (ny : ℤ) ≤ 2 * (ny : ℤ) - 2 ∧ 0 ≤ j - (nx : ℤ) ∧ j - (nx : ℤ) ≤ 2 * (nx : ℤ) - 2 then
        k (i + (ny : ℤ)) (j - (nx : ℤ)) else 0) from if_congr (by omega) rfl rfl]

/-- Folding makes the kernel periodic across a row wrap: within the window,
an entry and its `+ny`-row translate agree. -/
theorem applyPBC_shift_row (ny nx : ℕ) (k : Ker α) (i j : ℤ)
    (hi1 : 0 ≤ i) (hi2 : i ≤ (ny : ℤ) - 2)
    (hj1 : 0 ≤ j) (hj2 : j ≤ 2 * (nx : ℤ) - 2) :
    applyPBC ny nx k i j = applyPBC ny nx k (i + ny) j := by
  rw [applyPBC_char ny nx k i j hi1 (by omega) hj1 hj2,
    applyPBC_char ny nx k (i + (ny : ℤ)) j (by omega) (by omega) hj1 hj2,
    show i + (ny : ℤ) - (ny : ℤ) = i from by ring]
  have zl : ∀ b : ℤ, winGuard ny nx k (i - (ny : ℤ)) b = 0 := fun b => by
    unfold winGuard; exact if_neg (by omega)
  have zr : ∀ b : ℤ, winGuard ny nx k (i + (ny : ℤ) + (ny : ℤ)) b = 0 := fun b => by
    unfold winGuard; exact if_neg (by omega)
  have wl : winGuard ny nx k (i + (ny : ℤ)) j = k (i + (ny : ℤ)) j := by
    unfold winGuard; exact if_pos (by omega)
  have wr : winGuard ny nx k i j = k i j := by
    unfold winGuard; exact if_pos (by omega)
  simp only [zl, zr]
  rw [wl, wr]
  ring

/-- Folding makes the kernel periodic across a column wrap: within the
window, an entry and its `+nx`-column translate agree. -/
theorem applyPBC_shift_col (ny nx : ℕ) (k : Ker α) (i j : ℤ)
    (hi1 : 0 ≤ i) (hi2 : i ≤ 2 * (ny : ℤ) - 2)
    (hj1 : 0 ≤ j) (hj2 : j ≤ (nx : ℤ) - 2) :
    applyPBC ny nx k i j = applyPBC ny nx k i (j + nx) := by
  rw [applyPBC_char ny nx k i j hi1 hi2 hj1 (by omega),
    applyPBC_char ny nx k i (j + (nx : ℤ)) hi1 hi2 (by omega) (by omega),
    show j + (nx : ℤ) - (nx : ℤ) = j from by ring]
  have zl : ∀ a : ℤ, winGuard ny nx k a (j - (nx : ℤ)) = 0 := fun a => by
    unfold winGuard; exact if_neg (by omega)
  have zr : ∀ a : ℤ, winGuard ny nx k a (j + (nx : ℤ) + (nx : ℤ)) = 0 := fun a => by
    unfold winGuard; exact if_neg (by omega)
  have wl : winGuard ny nx k i (j + (nx : ℤ)) = k i (j + (nx : ℤ)) := by
    unfold winGuard; exact if_pos (by omega)
  have wr : winGuard ny nx k i j = k i j := by
    unfold winGuard; exact if_pos (by omega)
  simp only [zl, zr]
  rw [wl, wr]
  ring

/-- Two window positions that differ by a full period in each axis (in
either direction, or not at all) read the same entry of a folded kernel. -/
theorem applyPBC_congr (ny nx : ℕ) (k : Ker α) (i i' j j' : ℤ)
    (hi1 : 0 ≤ i) (hi2 : i ≤ 2 * (ny : ℤ) - 2)
    (hi1' : 0 ≤ i') (hi2' : i' ≤ 2 * (ny : ℤ) - 2)
    (hj1 : 0 ≤ j) (hj2 : j ≤ 2 * (nx : ℤ) - 2)
    (hj1' : 0 ≤ j') (hj2' : j' ≤ 2 * (nx : ℤ) - 2)
    (hrow : i = i' ∨ i = i' + ny ∨ i' = i + ny)
    (hcol : j = j' ∨ j = j' + nx ∨ j' = j + nx) :
    applyPBC ny nx k i j = applyPBC ny nx k i' j' := by
  have hstep1 : applyPBC ny nx k i j = applyPBC ny nx k i' j := by
    rcases hrow with h | h | h
    · rw [h]
    · rw [h]
      exact (applyPBC_shift_row ny nx k i' j hi1' (by omega) hj1 hj2).symm
    · rw [h]
      exact applyPBC_shift_row ny nx k i j hi1 (by omega) hj1 hj2
  rw [hstep1]
  rcases hcol with h | h | h
  · rw [h]
  · rw [h]
    exact (applyPBC_shift_col ny nx k i' j' hi1' hi2' hj1' (by omega)).symm
  · rw [h]
    exact applyPBC_shift_col ny nx k i' j hi1' hi2' hj1 (by omega)

/-- Adding two wrapped row indices either stays below the axis length or
overflows by exactly one period. -/
theorem fin_add_val_cases {n : ℕ} (a b : Fin n) :
    ((a + b : Fin n) : ℕ) = (a : ℕ) + (b : ℕ) ∨
      ((a + b : Fin n) : ℕ) + n = (a : ℕ) + (b : ℕ) := by
  have ha := a.isLt
  have hb := b.isLt
  rcases Nat.lt_or_ge ((a : ℕ) + (b : ℕ)) n with hlt | hge
  · left
    rw [Fin.val_add, Nat.mod_eq_of_lt hlt]
  · right
    rw [Fin.val_add, Nat.mod_eq_sub_mod hge, Nat.mod_eq_of_lt (by omega)]
    omega

/-- A cyclic shift by a multiple of the unit cell does not change a site's
offset inside its unit cell. -/
theorem mod_shift_val {n c : ℕ} (hd : c ∣ n) (y σ : Fin n) (hs : c ∣ (σ : ℕ)) :
    (((y + σ : Fin n) : ℕ)) % c = (y : ℕ) % c := by
  rw [Fin.val_add, Nat.mod_mod_of_dvd _ hd]
  obtain ⟨t, ht⟩ := hs
  rw [ht, Nat.add_mul_mod_self_left]

/-- Reindexing a full sum over `Fin n` by a cyclic shift. -/
theorem sum_fin_shift {n : ℕ} [NeZero n] {M : Type} [AddCommMonoid M]
    (σ : Fin n) (f : Fin n → M) :
    (∑ u : Fin n, f (u + σ)) = ∑ u : Fin n, f u :=
  Fintype.sum_bijective (fun u : Fin n => u + σ)
    (Finite.injective_iff_bijective.mp (add_left_injective σ))
    (fun u => f (u + σ)) f (fun _ => rfl)

/-- A double sum over a grid is invariant under a cyclic shift of the
grid. -/
theorem sum_shiftGrid {M : Type} [AddCommMonoid M] [NeZero ny] [NeZero nx]
    (σy : Fin ny) (σx : Fin nx) (g : Fin ny → Fin nx → M) :
    (∑ y : Fin ny, ∑ x : Fin nx, shiftGrid σy σx g y x)
      = ∑ y : Fin ny, ∑ x : Fin nx, g y x := by
  have hrow : ∀ y : Fin ny,
      (∑ x : Fin nx, shiftGrid σy σx g y x) = ∑ x : Fin nx, g (y + σy) x := by
    intro y
    exact sum_fin_shift σx (fun x => g (y + σy) x)
  rw [Finset.sum_congr rfl (fun y _ => hrow y)]
  exact sum_fin_shift σy (fun y => ∑ x : Fin nx, g y x)

/-- `DipolarEnergy.update` with `apply_PBC`-folded kernels is equivariant
under a cyclic shift of the lattice origin, provided the unit cell divides
both the lattice shape (so the cached kernels tile) and the shift (so the
shift maps unit cells to unit cells): recomputing from the shifted spin and
moment data yields exactly the shifted energy grid. -/
theorem dipUpdE_shift [NeZero ny] [NeZero nx] (c : DipCtx α ny nx)
    (base : ℤ → Ker α) (m : Grid α ny nx) (σy : Fin ny) (σx : Fin nx)
    (hcy : 0 < c.cy) (hcx : 0 < c.cx)
    (hdy : c.cy ∣ ny) (hdx : c.cx ∣ nx)
    (hsy : c.cy ∣ (σy : ℕ)) (hsx : c.cx ∣ (σx : ℕ)) :
    dipUpdE { c with moment := shiftGrid σy σx c.moment }
        (fun n => applyPBC ny nx (base n)) (shiftGrid σy σx m)
      = shiftGrid σy σx
          (dipUpdE c (fun n => applyPBC ny nx (base n)) m) := by
  funext y x
  show dipUpdE { c with moment := shiftGrid σy σx c.moment }
      (fun n => applyPBC ny nx (base n)) (shiftGrid σy σx m) y x
    = dipUpdE c (fun n => applyPBC ny nx (base n)) m (y + σy) (x + σx)
  rw [dipUpdE_apply c _ _ hcy hcx,
    dipUpdE_apply { c with moment := shiftGrid σy σx c.moment }
      (fun n => applyPBC ny nx (base n)) (shiftGrid σy σx m) hcy hcx]
  have hidx : dipIdx { c with moment := shiftGrid σy σx c.moment } (y, x)
      = dipIdx c (y + σy, x + σx) := by
    show c.kernel_unitcell_indices ((y : ℕ) % c.cy) ((x : ℕ) % c.cx)
      = c.kernel_unitcell_indices (((y + σy : Fin ny) : ℕ) % c.cy)
          (((x + σx : Fin nx) : ℕ) % c.cx)
    rw [mod_shift_val hdy y σy hsy, mod_shift_val hdx x σx hsx]
  have hval : dipValid { c with moment := shiftGrid σy σx c.moment } (y, x)
      ↔ dipValid c (y + σy, x + σx) := by
    unfold dipValid
    rw [hidx]
  by_cases hv : dipValid c (y + σy, x + σx)
  · rw [if_pos hv, if_pos (hval.mpr hv)]
    have hker : ∀ (u : Fin ny) (v : Fin nx),
        dipSliceOf { c with moment := shiftGrid σy σx c.moment }
            (fun n => applyPBC ny nx (base n)) (y, x) (u, v)
          = dipSliceOf c (fun n => applyPBC ny nx (base n))
              (y + σy, x + σx) (u + σy, v + σx) := by
      intro u v
      simp only [dipSliceOf]
      rw [hidx]
      have hyl := y.isLt
      have hxl := x.isLt
      have hul := u.isLt
      have hvl := v.isLt
      have hyσ := (y + σy).isLt
      have hxσ := (x + σx).isLt
      have huσ := (u + σy).isLt
      have hvσ := (v + σx).isLt
      have hy2 := fin_add_val_cases y σy
      have hu2 := fin_add_val_cases u σy
      have hx2 := fin_add_val_cases x σx
      have hv2 := fin_add_val_cases v σx
      have hyσ0 : (0 : ℤ) ≤ ((y + σy : Fin ny) : ℤ) := Int.natCast_nonneg _
      have huσ0 : (0 : ℤ) ≤ ((u + σy : Fin ny) : ℤ) := Int.natCast_nonneg _
      have hxσ0 : (0 : ℤ) ≤ ((x + σx : Fin nx) : ℤ) := Int.natCast_nonneg _
      have hvσ0 : (0 : ℤ) ≤ ((v + σx : Fin nx) : ℤ) := Int.natCast_nonneg _
      have hb1 : (0 : ℤ) ≤ (ny : ℤ) - 1 - (y : ℤ) + (u : ℤ) := by omega
      have hb2 : (ny : ℤ) - 1 - (y : ℤ) + (u : ℤ) ≤ 2 * (ny : ℤ) - 2 := by
        omega
      have hb3 : (0 : ℤ) ≤ (ny : ℤ) - 1 - ((y + σy : Fin ny) : ℤ)
          + ((u + σy : Fin ny) : ℤ) := by omega
      have hb4 : (ny : ℤ) - 1 - ((y + σy : Fin ny) : ℤ)
          + ((u + σy : Fin ny) : ℤ) ≤ 2 * (ny : ℤ) - 2 := by omega
      have hb5 : (0 : ℤ) ≤ (nx : ℤ) - 1 - (x : ℤ) + (v : ℤ) := by omega
      have hb6 : (nx : ℤ) - 1 - (x : ℤ) + (v : ℤ) ≤ 2 * (nx : ℤ) - 2 := by
        omega
      have hb7 : (0 : ℤ) ≤ (nx : ℤ) - 1 - ((x + σx : Fin nx) : ℤ)
          + ((v + σx : Fin nx) : ℤ) := by omega
      have hb8 : (nx : ℤ) - 1 - ((x + σx : Fin nx) : ℤ)
          + ((v + σx : Fin nx) : ℤ) ≤ 2 * (nx : ℤ) - 2 := by omega
      have hrowrel : (ny : ℤ) - 1 - (y : ℤ) + (u : ℤ)
            = (ny : ℤ) - 1 - ((y + σy : Fin ny) : ℤ) + ((u + σy : Fin ny) : ℤ)
          ∨ (ny : ℤ) - 1 - (y : ℤ) + (u : ℤ)
            = ((ny : ℤ) - 1 - ((y + σy : Fin ny) : ℤ)
                + ((u + σy : Fin ny) : ℤ)) + (ny : ℤ)
          ∨ (ny : ℤ) - 1 - ((y + σy : Fin ny) : ℤ) + ((u + σy : Fin ny) : ℤ)
            = ((ny : ℤ) - 1 - (y : ℤ) + (u : ℤ)) + (ny : ℤ) := by
        rcases hy2 with h | h <;> rcases hu2 with h' | h' <;> omega
      have hcolrel : (nx : ℤ) - 1 - (x : ℤ) + (v : ℤ)
            = (nx : ℤ) - 1 - ((x + σx : Fin nx) : ℤ) + ((v + σx : Fin nx) : ℤ)
          ∨ (nx : ℤ) - 1 - (x : ℤ) + (v : ℤ)
            = ((nx : ℤ) - 1 - ((x + σx : Fin nx) : ℤ)
                + ((v + σx : Fin nx) : ℤ)) + (nx : ℤ)
          ∨ (nx : ℤ) - 1 - ((x + σx : Fin nx) : ℤ) + ((v + σx : Fin nx) : ℤ)
            = ((nx : ℤ) - 1 - (x : ℤ) + (v : ℤ)) + (nx : ℤ) := by
        rcases hx2 with h | h <;> rcases hv2 with h' | h' <;> omega
      exact applyPBC_congr ny nx _ _ _ _ _ hb1 hb2 hb3 hb4 hb5 hb6 hb7 hb8
        hrowrel hcolrel
    have hsum : (∑ u : Fin ny, ∑ v : Fin nx,
          dipSliceOf { c with moment := shiftGrid σy σx c.moment }
              (fun n => applyPBC ny nx (base n)) (y, x) (u, v)
            * (shiftGrid σy σx m u v * shiftGrid σy σx c.moment u v))
        = ∑ u : Fin ny, ∑ v : Fin nx,
            dipSliceOf c (fun n => applyPBC ny nx (base n))
                (y + σy, x + σx) (u, v) * (m u v * c.moment u v) := by
      have hterm : ∀ (u : Fin ny) (v : Fin nx),
          dipSliceOf { c with moment := shiftGrid σy σx c.moment }
              (fun n => applyPBC ny nx (base n)) (y, x) (u, v)
            * (shiftGrid σy σx m u v * shiftGrid σy σx c.moment u v)
          = dipSliceOf c (fun n => applyPBC ny nx (base n))
                (y + σy, x + σx) (u + σy, v + σx)
              * (m (u + σy) (v + σx) * c.moment (u + σy) (v + σx)) := by
        intro u v
        rw [hker u v]
        rfl
      rw [Finset.sum_congr rfl (fun u _ => Finset.sum_congr rfl
        (fun v _ => hterm u v))]
      have hrow : ∀ u : Fin ny,
          (∑ v : Fin nx,
            dipSliceOf c (fun n => applyPBC ny nx (base n))
                (y + σy, x + σx) (u + σy, v + σx)
              * (m (u + σy) (v + σx) * c.moment (u + σy) (v + σx)))
          = ∑ v : Fin nx,
              dipSliceOf c (fun n => applyPBC ny nx (base n))
                  (y + σy, x + σx) (u + σy, v)
                * (m (u + σy) v * c.moment (u + σy) v) := by
        intro u
        exact sum_fin_shift σx (fun v =>
          dipSliceOf c (fun n => applyPBC ny nx (base n))
              (y + σy, x + σx) (u + σy, v)
            * (m (u + σy) v * c.moment (u + σy) v))
      rw [Finset.sum_congr rfl (fun u _ => hrow u)]
      exact sum_fin_shift σy (fun u => ∑ v : Fin nx,
        dipSliceOf c (fun n => applyPBC ny nx (base n))
            (y + σy, x + σx) (u, v) * (m u v * c.moment u v))
    rw [hsum]
    rfl
  · rw [if_neg hv, if_neg (fun h => hv (hval.mp h))]

end ClaimC6

section ClaimC6Main

variable [Field α] [NeZero ny] [NeZero nx]

/-- C6: on a periodic lattice — kernels cached as `apply_PBC`-folded images
of base kernels, unit cell dividing the lattice shape — the dipolar energy
computed by `DipolarEnergy.update` is invariant under any cyclic shift of
the lattice origin by whole unit cells: recomputing from the shifted spin
and moment data yields exactly the shifted per-site energy grid `E` (and
`E_perp`), hence the same per-pair energies, and the total energy `E_tot`
is identical from either origin. -/
theorem claim_C6_translation_invariance (c : DipCtx α ny nx)
    (basek baseps : ℤ → Ker α) (st : EState α ny nx)
    (σy : Fin ny) (σx : Fin nx)
    (hk : c.kernel_unitcell = fun n => applyPBC ny nx (basek n))
    (hp : c.kernel_perpself_unitcell = fun n => applyPBC ny nx (baseps n))
    (hcy : 0 < c.cy) (hcx : 0 < c.cx)
    (hdy : c.cy ∣ ny) (hdx : c.cx ∣ nx)
    (hsy : c.cy ∣ (σy : ℕ)) (hsx : c.cx ∣ (σx : ℕ)) :
    (dipUpdate { c with moment := shiftGrid σy σx c.moment }
        { st with m := shiftGrid σy σx st.m,
                  E_perp := shiftGrid σy σx st.E_perp }).E
        = shiftGrid σy σx (dipUpdate c st).E
    ∧ (dipUpdate { c with moment := shiftGrid σy σx c.moment }
        { st with m := shiftGrid σy σx st.m,
                  E_perp := shiftGrid σy σx st.E_perp }).E_perp
        = shiftGrid σy σx (dipUpdate c st).E_perp
    ∧ dipEtot ((dipUpdate { c with moment := shiftGrid σy σx c.moment }
        { st with m := shiftGrid σy σx st.m,
                  E_perp := shiftGrid σy σx st.E_perp }).E)
        = dipEtot ((dipUpdate c st).E) := by
  have hE : (dipUpdate { c with moment := shiftGrid σy σx c.moment }
      { st with m := shiftGrid σy σx st.m,
                E_perp := shiftGrid σy σx st.E_perp }).E
      = shiftGrid σy σx (dipUpdate c st).E := by
    show dipUpdE { c with moment := shiftGrid σy σx c.moment }
        c.kernel_unitcell (shiftGrid σy σx st.m)
      = shiftGrid σy σx (dipUpdE c c.kernel_unitcell st.m)
    rw [hk]
    exact dipUpdE_shift c basek st.m σy σx hcy hcx hdy hdx hsy hsx
  have hP : (dipUpdate { c with moment := shiftGrid σy σx c.moment }
      { st with m := shiftGrid σy σx st.m,
                E_perp := shiftGrid σy σx st.E_perp }).E_perp
      = shiftGrid σy σx (dipUpdate c st).E_perp := by
    show (if c.use_perp = true then
        dipUpdE { c with moment := shiftGrid σy σx c.moment }
          c.kernel_perpself_unitcell (shiftGrid σy σx st.m)
      else shiftGrid σy σx st.E_perp)
      = shiftGrid σy σx (if c.use_perp = true then
          dipUpdE c c.kernel_perpself_unitcell st.m else st.E_perp)
    by_cases hup : c.use_perp = true
    · rw [if_pos hup, if_pos hup, hp]
      exact dipUpdE_shift c baseps st.m σy σx hcy hcx hdy hdx hsy hsx
    · rw [if_neg hup, if_neg hup]
  refine ⟨hE, hP, ?_⟩
  rw [hE]
  unfold dipEtot
  rw [sum_shiftGrid]

end ClaimC6Main

/-- Witness for C6: on the periodic 2×1 lattice with folded kernels, the
shift by one row (a whole unit cell) of the inhomogeneous state `c6St`
satisfies every hypothesis, and the invariance holds there. -/
theorem claim_C6_witness :
    (c6Ctx.kernel_unitcell = fun n => applyPBC 2 1 (c6Base n))
    ∧ (c6Ctx.kernel_perpself_unitcell = fun n => applyPBC 2 1 (c6BaseP n))
    ∧ 0 < c6Ctx.cy ∧ 0 < c6Ctx.cx ∧ c6Ctx.cy ∣ 2 ∧ c6Ctx.cx ∣ 1
    ∧ c6Ctx.cy ∣ ((1 : Fin 2) : ℕ) ∧ c6Ctx.cx ∣ ((0 : Fin 1) : ℕ)
    ∧ ((dipUpdate { c6Ctx with moment := shiftGrid 1 0 c6Ctx.moment }
          { c6St with m := shiftGrid 1 0 c6St.m,
                      E_perp := shiftGrid 1 0 c6St.E_perp }).E
        = shiftGrid 1 0 (dipUpdate c6Ctx c6St).E
      ∧ (dipUpdate { c6Ctx with moment := shiftGrid 1 0 c6Ctx.moment }
          { c6St with m := shiftGrid 1 0 c6St.m,
                      E_perp := shiftGrid 1 0 c6St.E_perp }).E_perp
        = shiftGrid 1 0 (dipUpdate c6Ctx c6St).E_perp
      ∧ dipEtot ((dipUpdate { c6Ctx with moment := shiftGrid 1 0 c6Ctx.moment }
          { c6St with m := shiftGrid 1 0 c6St.m,
                      E_perp := shiftGrid 1 0 c6St.E_perp }).E)
        = dipEtot ((dipUpdate c6Ctx c6St).E)) :=
  ⟨rfl, rfl, by decide, by decide, by decide, by decide, by decide, by decide,
    claim_C6_translation_invariance c6Ctx c6Base c6BaseP c6St 1 0 rfl rfl
      (by decide) (by decide) (by decide) (by decide) (by decide) (by decide)⟩

section ClaimC7

variable [LinearOrderedField α] [NeZero ny] [NeZero nx]

/-- The eight-fold PBC sum of the zero kernel is zero. -/
theorem applyPBC_zero (i j : ℤ) :
    applyPBC ny nx (fun _ _ => (0 : α)) i j = 0 := by
  unfold applyPBC
  simp

/-- A kernel list built from raw kernels that are all zero yields zero at
every index and entry. -/
theorem builtKernels_zero (d : MagDesc α ny nx)
    (raw : MagDesc α ny nx → ℕ → ℕ → Ker α)
    (hz : ∀ y x, raw d y x = fun _ _ => 0) (n i j : ℤ) :
    builtKernels d raw n i j = 0 := by
  unfold builtKernels
  by_cases h : 0 ≤ n ∧ n.toNat < (occList d).length
  · rw [dif_pos h]
    unfold finishKernel
    rw [hz]
    by_cases hp : d.pbc = true
    · rw [if_pos hp, applyPBC_zero, zero_mul]
    · rw [if_neg hp]
      simp
  · rw [dif_neg h]

/-- `_initialize` on an out-of-plane lattice: the raw perpendicular-self
kernel of every unit-cell member is identically zero. -/
theorem rawKernelPerpself_oop (d : MagDesc α ny nx) (hoop : d.in_plane = false)
    (y x : ℕ) : rawKernelPerpself d y x = fun _ _ => 0 := by
  unfold rawKernelPerpself
  rw [hoop]
  rfl

/-- Likewise for the raw perpendicular-other kernel. -/
theorem rawKernelPerpother_oop (d : MagDesc α ny nx) (hoop : d.in_plane = false)
    (y x : ℕ) : rawKernelPerpother d y x = fun _ _ => 0 := by
  unfold rawKernelPerpother
  rw [hoop]
  rfl

/-- The full dipolar recompute against an identically-zero kernel family is
the zero grid. -/
theorem dipUpdE_zeroK (c : DipCtx α ny nx) (K : ℤ → Ker α)
    (hK : ∀ n i j, K n i j = 0) (m : Grid α ny nx) :
    dipUpdE c K m = fun _ _ => 0 := by
  funext y x
  unfold dipUpdE convValid reverseK
  simp only [hK, zero_mul, mul_zero, Finset.sum_const_zero, ite_self]

/-- Every strategy of `update_multiple` against an identically-zero kernel
family accumulates the zero field. -/
theorem dipConvolvedKernel_zeroK (c : DipCtx α ny nx) (K : ℤ → Ker α)
    (hK : ∀ n i j, K n i j = 0) (S : List (Site ny nx)) (m : Grid α ny nx)
    (oy ox : ℕ) (y : Fin ny) (x : Fin nx) :
    dipConvolvedKernel c K S m oy ox y x = 0 := by
  unfold dipConvolvedKernel
  by_cases h1 : (dipGroup c S oy ox).length = 0 ∨ c.kernel_unitcell_indices oy ox < 0
  · rw [if_pos h1]
  · rw [if_neg h1]
    by_cases h2 : (dipGroup c S oy ox).length > c.cutoff
    · rw [if_pos h2]
      by_cases h3 : c.pbc = true
      · rw [if_pos h3]
        unfold convSameWrap
        refine Finset.sum_eq_zero fun p _ => Finset.sum_eq_zero fun q _ => ?_
        split_ifs <;> simp [hK]
      · rw [if_neg h3]
        unfold convSameFill
        refine Finset.sum_eq_zero fun u _ => Finset.sum_eq_zero fun v _ => ?_
        split_ifs <;> simp [hK]
    · rw [if_neg h2]
      refine List.sum_eq_zero fun z hz => ?_
      obtain ⟨s, _, rfl⟩ := List.mem_map.mp hz
      rw [hK, mul_zero]

/-- One dipolar dispatch keeps an identically-zero `E_perp` identically
zero whenever the two cached perpendicular kernel families are zero. -/
theorem dipStep_perp_zero (c : DipCtx α ny nx)
    (hps : ∀ n i j, c.kernel_perpself_unitcell n i j = 0)
    (hpo : ∀ n i j, c.kernel_perpother_unitcell n i j = 0)
    (st : EState α ny nx) (h : st.E_perp = fun _ _ => 0) (op : SwitchOp ny nx) :
    (dipStep c st op).E_perp = fun _ _ => 0 := by
  cases op with
  | recompute =>
    show (if c.use_perp = true then dipUpdE c c.kernel_perpself_unitcell st.m
        else st.E_perp) = fun _ _ => 0
    by_cases hup : c.use_perp = true
    · rw [if_pos hup]
      exact dipUpdE_zeroK c _ hps st.m
    · rw [if_neg hup]
      exact h
  | single s =>
    show (dipUpdateSingle c s { st with m := flipOne s st.m }).E_perp = fun _ _ => 0
    unfold dipUpdateSingle
    by_cases hidx : dipIdx c s < 0
    · rw [if_pos hidx]
      exact h
    · rw [if_neg hidx]
      dsimp only
      by_cases hup : c.use_perp = true
      · rw [if_pos hup]
        funext y x
        have hk0 : kpoSlice c s (y, x) = 0 := hpo _ _ _
        have hperp0 : st.E_perp y x = 0 := by rw [h]
        by_cases hyx : (y, x) = s
        · rw [if_pos hyx, hk0, hperp0]
          ring
        · rw [if_neg hyx, hk0, hperp0]
          ring
      · rw [if_neg hup]
        exact h
  | multiple S =>
    show (dipUpdateMultiple c S { st with m := flipMany S st.m }).E_perp = fun _ _ => 0
    unfold dipUpdateMultiple
    dsimp only
    by_cases hup : c.use_perp = true
    · rw [if_pos hup]
      funext y x
      have hneg : negAt S st.E_perp y x = 0 := by
        simp [negAt, h]
      rw [hneg, zero_add]
      refine Finset.sum_eq_zero fun oy _ => Finset.sum_eq_zero fun ox _ => ?_
      rw [dipConvolvedKernel_zeroK c _ hpo S _ oy ox y x, mul_zero, mul_zero,
        mul_zero]
    · rw [if_neg hup]
      exact h

/-- Dipolar runs preserve the zero `E_perp` grid. -/
theorem dipRun_perp_zero (c : DipCtx α ny nx)
    (hps : ∀ n i j, c.kernel_perpself_unitcell n i j = 0)
    (hpo : ∀ n i j, c.kernel_perpother_unitcell n i j = 0) :
    ∀ (ops : List (SwitchOp ny nx)) (st : EState α ny nx),
      st.E_perp = (fun _ _ => 0) → (dipRun c st ops).E_perp = fun _ _ => 0
  | [], _, h => h
  | op :: rest, st, h =>
    dipRun_perp_zero c hps hpo rest _ (dipStep_perp_zero c hps hpo st h op)

/-- `set_field` on an out-of-plane lattice leaves `E_factor_perp`
identically zero. -/
theorem zeemanCtxOf_perp_oop (d : MagDesc α ny nx) (hoop : d.in_plane = false)
    (Bx By B : Grid α ny nx) :
    (zeemanCtxOf d Bx By B).E_factor_perp = fun _ _ => 0 := by
  show (if d.in_plane = true then _ else fun _ _ => 0) = fun _ _ => 0
  rw [hoop]
  rfl

/-- One Zeeman dispatch keeps an identically-zero `E_perp` identically zero
whenever `E_factor_perp` is zero. -/
theorem zeemanStep_perp_zero (c : ZeemanCtx α ny nx)
    (hfp : c.E_factor_perp = fun _ _ => 0)
    (st : EState α ny nx) (h : st.E_perp = fun _ _ => 0) (op : SwitchOp ny nx) :
    (zeemanStep c st op).E_perp = fun _ _ => 0 := by
  cases op with
  | recompute =>
    show (if c.use_perp = true then (fun y x => st.m y x * c.E_factor_perp y x)
        else st.E_perp) = fun _ _ => 0
    by_cases hup : c.use_perp = true
    · rw [if_pos hup]
      funext y x
      simp [hfp]
    · rw [if_neg hup]
      exact h
  | single s =>
    show (if c.use_perp = true then
        (fun y x => if (y, x) = s then -st.E_perp y x else st.E_perp y x)
      else st.E_perp) = fun _ _ => 0
    by_cases hup : c.use_perp = true
    · rw [if_pos hup]
      funext y x
      by_cases hyx : (y, x) = s <;> simp [hyx, h]
    · rw [if_neg hup]
      exact h
  | multiple S =>
    show (if c.use_perp = true then negAt S st.E_perp else st.E_perp)
        = fun _ _ => 0
    by_cases hup : c.use_perp = true
    · rw [if_pos hup]
      funext y x
      simp [negAt, h]
    · rw [if_neg hup]
      exact h

/-- Zeeman runs preserve the zero `E_perp` grid. -/
theorem zeemanRun_perp_zero (c : ZeemanCtx α ny nx)
    (hfp : c.E_factor_perp = fun _ _ => 0) :
    ∀ (ops : List (SwitchOp ny nx)) (st : EState α ny nx),
      st.E_perp = (fun _ _ => 0) → (zeemanRun c st ops).E_perp = fun _ _ => 0
  | [], _, h => h
  | op :: rest, st, h =>
    zeemanRun_perp_zero c hfp rest _ (zeemanStep_perp_zero c hfp st h op)

/-- `ExchangeEnergy.update` on an out-of-plane lattice computes a zero
`E_perp` grid. -/
theorem exchEperp_oop (c : ExchCtx α ny nx) (hec : c.in_plane = false)
    (m : Grid α ny nx) : exchEperp c m = fun _ _ => 0 := by
  unfold exchEperp
  rw [hec]
  rfl

/-- One exchange dispatch keeps an identically-zero `E_perp` identically
zero on an out-of-plane lattice. -/
theorem exchStep_perp_zero (c : ExchCtx α ny nx) (hec : c.in_plane = false)
    (st : EState α ny nx) (h : st.E_perp = fun _ _ => 0) (op : SwitchOp ny nx) :
    (exchStep c st op).E_perp = fun _ _ => 0 := by
  have hupd : ∀ st' : EState α ny nx, st'.E_perp = (fun _ _ => 0) →
      (exchUpdate c st').E_perp = fun _ _ => 0 := by
    intro st' h'
    show (if c.use_perp = true then exchEperp c st'.m else st'.E_perp)
        = fun _ _ => 0
    by_cases hup : c.use_perp = true
    · rw [if_pos hup]
      exact exchEperp_oop c hec st'.m
    · rw [if_neg hup]
      exact h'
  cases op with
  | recompute => exact hupd st h
  | single s => exact hupd { st with m := flipOne s st.m } h
  | multiple S => exact hupd { st with m := flipMany S st.m } h

/-- Exchange runs preserve the zero `E_perp` grid. -/
theorem exchRun_perp_zero (c : ExchCtx α ny nx) (hec : c.in_plane = false) :
    ∀ (ops : List (SwitchOp ny nx)) (st : EState α ny nx),
      st.E_perp = (fun _ _ => 0) → (exchRun c st ops).E_perp = fun _ _ => 0
  | [], _, h => h
  | op :: rest, st, h =>
    exchRun_perp_zero c hec rest _ (exchStep_perp_zero c hec st h op)

/-- C7: on an out-of-plane lattice (`in_plane = false`), the perpendicular
energy grid `E_perp` is identically zero right after initialization, and
stays identically zero after every `update`, `update_single` and
`update_multiple` call, for all three contribution types: the Zeeman
`E_factor_perp` is set to zero by `set_field`, the two perpendicular dipolar
kernel caches are built all-zero by `_initialize`, and the exchange
`update` writes a zero grid. -/
theorem claim_C7_oop_perp_zero (d : MagDesc α ny nx) (Bx By B : Grid α ny nx)
    (ec : ExchCtx α ny nx) (m : Grid α ny nx) (ops : List (SwitchOp ny nx))
    (hoop : d.in_plane = false) (hec : ec.in_plane = false) :
    (initState (α := α) m).E_perp = (fun _ _ => 0)
    ∧ (zeemanRun (zeemanCtxOf d Bx By B) (initState m) ops).E_perp
        = (fun _ _ => 0)
    ∧ (dipRun (dipCtxOf d) (initState m) ops).E_perp = (fun _ _ => 0)
    ∧ (exchRun ec (initState m) ops).E_perp = (fun _ _ => 0) := by
  have hps : ∀ n i j, (dipCtxOf d).kernel_perpself_unitcell n i j = 0 := by
    intro n i j
    exact builtKernels_zero d rawKernelPerpself
      (fun y x => rawKernelPerpself_oop d hoop y x) n i j
  have hpo : ∀ n i j, (dipCtxOf d).kernel_perpother_unitcell n i j = 0 := by
    intro n i j
    exact builtKernels_zero d rawKernelPerpother
      (fun y x => rawKernelPerpother_oop d hoop y x) n i j
  refine ⟨rfl, ?_, ?_, ?_⟩
  · exact zeemanRun_perp_zero (zeemanCtxOf d Bx By B)
      (zeemanCtxOf_perp_oop d hoop Bx By B) ops (initState m) rfl
  · exact dipRun_perp_zero (dipCtxOf d) hps hpo ops (initState m) rfl
  · exact exchRun_perp_zero ec hec ops (initState m) rfl

end ClaimC7

/-- Witness for C7: the out-of-plane 1×2 lattice `c7Mag` (perpendicular
energy tracking on), a uniform field, the out-of-plane exchange context,
and a run covering all three dispatch surfaces. -/
theorem claim_C7_witness :
    c7Mag.in_plane = false
    ∧ c7Exch.in_plane = false
    ∧ ((initState (α := ℚ) c7M).E_perp = (fun _ _ => 0)
      ∧ (zeemanRun (zeemanCtxOf c7Mag (fun _ _ => 1) (fun _ _ => 1) (fun _ _ => 1))
          (initState c7M) c7Ops).E_perp = (fun _ _ => 0)
      ∧ (dipRun (dipCtxOf c7Mag) (initState c7M) c7Ops).E_perp
          = (fun _ _ => 0)
      ∧ (exchRun c7Exch (initState c7M) c7Ops).E_perp
          = (fun _ _ => 0)) :=
  ⟨rfl, rfl,
    claim_C7_oop_perp_zero c7Mag (fun _ _ => 1) (fun _ _ => 1) (fun _ _ => 1)
      c7Exch c7M c7Ops rfl rfl⟩

section ClaimC8

variable [LinearOrderedField α] [NeZero ny] [NeZero nx]

/-- `rr_sq[0,0] = inf`: the masked self-distance. -/
theorem rr_sq_center (d : MagDesc α ny nx) : rr_sq d 0 0 = ⊤ := by
  unfold rr_sq
  exact if_pos ⟨rfl, rfl⟩

/-- `rr_inv[0,0] = inf**-0.5 = 0`. -/
theorem rr_inv_center (d : MagDesc α ny nx) : rr_inv d 0 0 = 0 := by
  unfold rr_inv
  rw [rr_sq_center]

/-- With nonzero cell sizes, `rr_inv` is finite everywhere: the only zero
distance is the masked origin, where `inf**-0.5 = 0`. -/
theorem rr_inv_ne_top (d : MagDesc α ny nx) (hdx : d.dx ≠ 0) (hdy : d.dy ≠ 0)
    (i j : ℕ) : rr_inv d i j ≠ ⊤ := by
  by_cases hc : i = 0 ∧ j = 0
  · obtain ⟨hi, hj⟩ := hc
    subst hi
    subst hj
    rw [rr_inv_center]
    exact WithTop.zero_ne_top
  · have ha : rrx d i j ^ 2 + rry d i j ^ 2 ≠ 0 := by
      rcases not_and_or.mp hc with hi | hj
      · have hy0 : rry d i j ≠ 0 :=
          mul_ne_zero (Nat.cast_ne_zero.mpr hi) hdy
        exact ne_of_gt
          (add_pos_of_nonneg_of_pos (sq_nonneg _) (pow_two_pos_of_ne_zero hy0))
      · have hx0 : rrx d i j ≠ 0 :=
          mul_ne_zero (Nat.cast_ne_zero.mpr hj) hdx
        exact ne_of_gt
          (add_pos_of_pos_of_nonneg (pow_two_pos_of_ne_zero hx0) (sq_nonneg _))
    have hsq : rr_sq d i j = ((rrx d i j ^ 2 + rry d i j ^ 2 : α) : WithTop α) := by
      unfold rr_sq
      exact if_neg hc
    unfold rr_inv
    rw [hsq]
    show (if rrx d i j ^ 2 + rry d i j ^ 2 = 0 then (⊤ : WithTop α)
        else ((d.invSqrt (rrx d i j ^ 2 + rry d i j ^ 2) : α) : WithTop α)) ≠ ⊤
    rw [if_neg ha]
    exact WithTop.coe_ne_top

/-- With nonzero cell sizes, `rr_inv3` is finite everywhere. -/
theorem rr_inv3_ne_top (d : MagDesc α ny nx) (hdx : d.dx ≠ 0) (hdy : d.dy ≠ 0)
    (i j : ℕ) : rr_inv3 d i j ≠ ⊤ := by
  obtain ⟨a, ha⟩ := WithTop.ne_top_iff_exists.mp (rr_inv_ne_top d hdx hdy i j)
  unfold rr_inv3
  rw [← ha]
  show ((d.powFn a : α) : WithTop α) ≠ ⊤
  exact WithTop.coe_ne_top

/-- `rr_inv3[0,0] = 0**decay = 0`. -/
theorem rr_inv3_center (d : MagDesc α ny nx) (hpow0 : d.powFn 0 = 0) :
    rr_inv3 d 0 0 = ((0 : α) : WithTop α) := by
  unfold rr_inv3
  rw [rr_inv_center]
  show ((d.powFn 0 : α) : WithTop α) = ((0 : α) : WithTop α)
  rw [hpow0]

/-- The mirrored inverse-cube-distance array is finite on every entry: no
`inf` ever reaches the kernel arithmetic. -/
theorem rinv3T_ne_top (d : MagDesc α ny nx) (hdx : d.dx ≠ 0) (hdy : d.dy ≠ 0)
    (i j : ℤ) : rinv3T d i j ≠ ⊤ := by
  unfold rinv3T mirror4
  split_ifs <;> exact rr_inv3_ne_top d hdx hdy _ _

/-- The centre (self-distance) entry of the mirrored inverse-cube-distance
array is exactly zero. -/
theorem rinv3R_center (d : MagDesc α ny nx) (hpow0 : d.powFn 0 = 0) :
    rinv3R d ((ny : ℤ) - 1) ((nx : ℤ) - 1) = 0 := by
  have hy : 1 ≤ (ny : ℤ) := by exact_mod_cast Nat.pos_of_ne_zero (NeZero.ne ny)
  have hx : 1 ≤ (nx : ℤ) := by exact_mod_cast Nat.pos_of_ne_zero (NeZero.ne nx)
  unfold rinv3R rinv3T mirror4
  rw [if_pos ⟨by omega, by omega⟩]
  have e1 : ((ny : ℤ) - 1 - ((ny : ℤ) - 1)).toNat = 0 := by omega
  have e2 : ((nx : ℤ) - 1 - ((nx : ℤ) - 1)).toNat = 0 := by omega
  rw [e1, e2, rr_inv3_center d hpow0]
  rfl

/-- Folding at the kernel centre adds nothing: each of the eight translated
images lands outside the window at the centre. -/
theorem applyPBC_center (k : Ker α) :
    applyPBC ny nx k ((ny : ℤ) - 1) ((nx : ℤ) - 1)
      = k ((ny : ℤ) - 1) ((nx : ℤ) - 1) := by
  have hy : 1 ≤ (ny : ℤ) := by exact_mod_cast Nat.pos_of_ne_zero (NeZero.ne ny)
  have hx : 1 ≤ (nx : ℤ) := by exact_mod_cast Nat.pos_of_ne_zero (NeZero.ne nx)
  rw [applyPBC_char ny nx k _ _ (by omega) (by omega) (by omega) (by omega)]
  have z1 : winGuard ny nx k ((ny : ℤ) - 1) ((nx : ℤ) - 1 - (nx : ℤ)) = 0 := by
    unfold winGuard; exact if_neg (by omega)
  have z2 : winGuard ny nx k ((ny : ℤ) - 1 - (ny : ℤ)) ((nx : ℤ) - 1 - (nx : ℤ)) = 0 := by
    unfold winGuard; exact if_neg (by omega)
  have z3 : winGuard ny nx k ((ny : ℤ) - 1 - (ny : ℤ)) ((nx : ℤ) - 1) = 0 := by
    unfold winGuard; exact if_neg (by omega)
  have z4 : winGuard ny nx k ((ny : ℤ) - 1 - (ny : ℤ)) ((nx : ℤ) - 1 + (nx : ℤ)) = 0 := by
    unfold winGuard; exact if_neg (by omega)
  have z5 : winGuard ny nx k ((ny : ℤ) - 1) ((nx : ℤ) - 1 + (nx : ℤ)) = 0 := by
    unfold winGuard; exact if_neg (by omega)
  have z6 : winGuard ny nx k ((ny : ℤ) - 1 + (ny : ℤ)) ((nx : ℤ) - 1 + (nx : ℤ)) = 0 := by
    unfold winGuard; exact if_neg (by omega)
  have z7 : winGuard ny nx k ((ny : ℤ) - 1 + (ny : ℤ)) ((nx : ℤ) - 1) = 0 := by
    unfold winGuard; exact if_neg (by omega)
  have z8 : winGuard ny nx k ((ny : ℤ) - 1 + (ny : ℤ)) ((nx : ℤ) - 1 - (nx : ℤ)) = 0 := by
    unfold winGuard; exact if_neg (by omega)
  rw [z1, z2, z3, z4, z5, z6, z7, z8]
  ring

/-- The dipole formula's centre entry is zero (it carries the `rinv3`
factor). -/
theorem kernelFormula_center (d : MagDesc α ny nx) (hpow0 : d.powFn 0 = 0)
    (y x : ℕ) (ox1 oy1 : α) :
    kernelFormula d y x ox1 oy1 ((ny : ℤ) - 1) ((nx : ℤ) - 1) = 0 := by
  unfold kernelFormula
  rw [rinv3R_center d hpow0, mul_zero]

/-- The raw normal kernel's centre entry is zero. -/
theorem rawKernel_center (d : MagDesc α ny nx) (hpow0 : d.powFn 0 = 0)
    (y x : ℕ) : rawKernel d y x ((ny : ℤ) - 1) ((nx : ℤ) - 1) = 0 := by
  unfold rawKernel
  by_cases hip : d.in_plane = true
  · rw [if_pos hip]
    exact kernelFormula_center d hpow0 y x _ _
  · rw [if_neg hip]
    rw [rinv3R_center d hpow0, mul_zero]

/-- The raw perpendicular-self kernel's centre entry is zero. -/
theorem rawKernelPerpself_center (d : MagDesc α ny nx) (hpow0 : d.powFn 0 = 0)
    (y x : ℕ) : rawKernelPerpself d y x ((ny : ℤ) - 1) ((nx : ℤ) - 1) = 0 := by
  unfold rawKernelPerpself
  by_cases hip : d.in_plane = true
  · rw [if_pos hip]
    exact kernelFormula_center d hpow0 y x _ _
  · rw [if_neg hip]

/-- The raw perpendicular-other kernel's centre entry is zero. -/
theorem rawKernelPerpother_center (d : MagDesc α ny nx) (hpow0 : d.powFn 0 = 0)
    (y x : ℕ) : rawKernelPerpother d y x ((ny : ℤ) - 1) ((nx : ℤ) - 1) = 0 := by
  unfold rawKernelPerpother
  by_cases hip : d.in_plane = true
  · rw [if_pos hip]
    rw [rinv3R_center d hpow0, mul_zero]
  · rw [if_neg hip]

/-- A cached kernel built from raw kernels with zero centres has zero
centre after folding and scaling too. -/
theorem builtKernels_center (d : MagDesc α ny nx)
    (raw : MagDesc α ny nx → ℕ → ℕ → Ker α)
    (hraw : ∀ y x, raw d y x ((ny : ℤ) - 1) ((nx : ℤ) - 1) = 0) (n : ℤ) :
    builtKernels d raw n ((ny : ℤ) - 1) ((nx : ℤ) - 1) = 0 := by
  unfold builtKernels
  by_cases h : 0 ≤ n ∧ n.toNat < (occList d).length
  · rw [dif_pos h]
    unfold finishKernel
    by_cases hp : d.pbc = true
    · rw [if_pos hp, applyPBC_center, hraw, zero_mul]
    · rw [if_neg hp, hraw, zero_mul]
  · rw [dif_neg h]

/-- C8: with nonzero cell sizes and the float power convention
`0**decay = 0`, the inverse-cube-distance array feeding every kernel entry
is finite everywhere (the masked origin `rr_sq[0,0] = inf` turns into
`rr_inv[0,0] = 0`, never a propagated `inf`), and the self-interaction
entry at the kernel centre is exactly zero in all three raw kernels and in
all three cached (scaled, and on a periodic lattice `apply_PBC`-folded)
kernels: the self-distance singularity is never evaluated. -/
theorem claim_C8_kernel_finite_center_zero (d : MagDesc α ny nx)
    (hdx : d.dx ≠ 0) (hdy : d.dy ≠ 0) (hpow0 : d.powFn 0 = 0) :
    (∀ i j : ℤ, rinv3T d i j ≠ ⊤)
    ∧ (∀ y x : ℕ,
        rawKernel d y x ((ny : ℤ) - 1) ((nx : ℤ) - 1) = 0
        ∧ rawKernelPerpself d y x ((ny : ℤ) - 1) ((nx : ℤ) - 1) = 0
        ∧ rawKernelPerpother d y x ((ny : ℤ) - 1) ((nx : ℤ) - 1) = 0)
    ∧ (∀ n : ℤ,
        builtKernels d rawKernel n ((ny : ℤ) - 1) ((nx : ℤ) - 1) = 0
        ∧ builtKernels d rawKernelPerpself n ((ny : ℤ) - 1) ((nx : ℤ) - 1) = 0
        ∧ builtKernels d rawKernelPerpother n ((ny : ℤ) - 1) ((nx : ℤ) - 1) = 0) := by
  refine ⟨fun i j => rinv3T_ne_top d hdx hdy i j,
    fun y x => ⟨rawKernel_center d hpow0 y x,
      rawKernelPerpself_center d hpow0 y x,
      rawKernelPerpother_center d hpow0 y x⟩,
    fun n => ⟨?_, ?_, ?_⟩⟩
  · exact builtKernels_center d rawKernel
      (fun y x => rawKernel_center d hpow0 y x) n
  · exact builtKernels_center d rawKernelPerpself
      (fun y x => rawKernelPerpself_center d hpow0 y x) n
  · exact builtKernels_center d rawKernelPerpother
      (fun y x => rawKernelPerpother_center d hpow0 y x) n

end ClaimC8

/-- Witness for C8: the in-plane periodic 2×2 lattice `c8Mag` with unit
cell sizes `1` and the cubic float power. -/
theorem claim_C8_witness :
    c8Mag.dx ≠ 0 ∧ c8Mag.dy ≠ 0 ∧ c8Mag.powFn 0 = 0
    ∧ ((∀ i j : ℤ, rinv3T c8Mag i j ≠ ⊤)
      ∧ (∀ y x : ℕ,
          rawKernel c8Mag y x (((2 : ℕ) : ℤ) - 1) (((2 : ℕ) : ℤ) - 1) = 0
          ∧ rawKernelPerpself c8Mag y x (((2 : ℕ) : ℤ) - 1) (((2 : ℕ) : ℤ) - 1) = 0
          ∧ rawKernelPerpother c8Mag y x (((2 : ℕ) : ℤ) - 1) (((2 : ℕ) : ℤ) - 1) = 0)
      ∧ (∀ n : ℤ,
          builtKernels c8Mag rawKernel n (((2 : ℕ) : ℤ) - 1) (((2 : ℕ) : ℤ) - 1) = 0
          ∧ builtKernels c8Mag rawKernelPerpself n (((2 : ℕ) : ℤ) - 1) (((2 : ℕ) : ℤ) - 1) = 0
          ∧ builtKernels c8Mag rawKernelPerpother n (((2 : ℕ) : ℤ) - 1) (((2 : ℕ) : ℤ) - 1) = 0)) :=
  ⟨by decide, by decide, by norm_num [c8Mag],
    claim_C8_kernel_finite_center_zero c8Mag (by decide) (by decide)
      (by norm_num [c8Mag])⟩

end Hotspice
